import Mathlib

set_option maxRecDepth 40000

/-!
Verification of the "deja" conversation-indexing engine against its design
specification.  The Python sources under `lib/` are shallowly embedded as
executable Lean definitions; theorems about those definitions settle the
spec's claims.  Python strings become `String`, dictionaries become
structures whose optional keys are `Option` fields, Python truthiness of a
string `s` is `s ≠ ""`, and Python's stdlib collaborators (ISO-8601
datetime parsing, the filesystem, the notes store) are passed in as
explicit parameters.
-/

namespace Deja

/-! ## Generic list/string helpers used by the embedding -/

/-- `pairwiseBool r l` holds when `r a b` holds for every pair of elements
`a` before `b` in `l` (an executable `List.Pairwise`). -/
def pairwiseBool (r : α → α → Bool) : List α → Bool
  | [] => true
  | a :: l => l.all (r a) && pairwiseBool r l

/-- Keep each string's first occurrence, skipping ones already seen. -/
def dedupFirstAux (seen : List String) : List String → List String
  | [] => []
  | x :: xs =>
    if seen.contains x then dedupFirstAux seen xs
    else x :: dedupFirstAux (x :: seen) xs

/-- First-occurrence deduplication, modelling the distinct keys of a Python
`Counter`/`set` built by left-to-right insertion. -/
def dedupFirst (l : List String) : List String := dedupFirstAux [] l

/-- Substring occurrence over character lists: models Python's `in` test on
strings (`pat in hay`). -/
def subOccurs (hay pat : List Char) : Bool :=
  pat.isPrefixOf hay ||
    match hay with
    | [] => false
    | _ :: t => subOccurs t pat

/-- Python `pat in s` (substring containment). -/
def containsSub (s pat : String) : Bool := subOccurs s.toList pat.toList

/-- Python `s[:n]` over characters. -/
def strTake (s : String) (n : Nat) : String := ⟨s.toList.take n⟩

/-- Split at every character satisfying `p`, keeping empty chunks; `acc`
holds the current chunk reversed. -/
def splitPredAux (p : Char → Bool) (acc : List Char) : List Char → List (List Char)
  | [] => [acc.reverse]
  | c :: t =>
    if p c then acc.reverse :: splitPredAux p [] t
    else splitPredAux p (c :: acc) t

/-- Python `s.split()`'s underlying chunking (callers drop the empty
chunks to get whitespace splitting). -/
def strSplitPred (p : Char → Bool) (s : String) : List String :=
  (splitPredAux p [] s.toList).map String.mk

/-- Split on a nonempty separator string, scanning left to right; the fuel
argument is the input length, which bounds the recursion. -/
def splitOnFuel (sep : List Char) : Nat → List Char → List Char → List (List Char)
  | 0, acc, l => [acc.reverse ++ l]
  | n + 1, acc, l =>
    match l with
    | [] => [acc.reverse]
    | c :: t =>
      if sep.isPrefixOf l && !sep.isEmpty then
        acc.reverse :: splitOnFuel sep n [] (l.drop sep.length)
      else splitOnFuel sep n (c :: acc) t

/-- Python `s.split(sep)` for a nonempty separator. -/
def strSplitOn (s sep : String) : List String :=
  (splitOnFuel sep.toList s.toList.length [] s.toList).map String.mk

/-- Python `s.startswith(pre)`. -/
def startsWithB (s pre : String) : Bool := pre.toList.isPrefixOf s.toList

/-- Stable insertion into a list sorted by the boolean relation `le`
(models the behaviour of Python's stable `list.sort`). -/
def orderedInsertB (le : α → α → Bool) (a : α) : List α → List α
  | [] => [a]
  | b :: l => if le a b then a :: b :: l else b :: orderedInsertB le a l

/-- Stable insertion sort by a boolean relation; for a total transitive
relation this computes exactly what Python's stable `list.sort` computes. -/
def insertionSortB (le : α → α → Bool) : List α → List α
  | [] => []
  | a :: l => orderedInsertB le a (insertionSortB le l)

theorem length_orderedInsertB (le : α → α → Bool) (a : α) (l : List α) :
    (orderedInsertB le a l).length = l.length + 1 := by
  induction l with
  | nil => rfl
  | cons b t ih =>
    simp only [orderedInsertB]
    by_cases h : le a b = true
    · simp [h]
    · simp [h, ih]

theorem length_insertionSortB (le : α → α → Bool) (l : List α) :
    (insertionSortB le l).length = l.length := by
  induction l with
  | nil => rfl
  | cons a t ih => simp [insertionSortB, length_orderedInsertB, ih]

theorem all_orderedInsertB (le : α → α → Bool) (p : α → Bool) (a : α) (l : List α)
    (hl : l.all p) (ha : p a) : (orderedInsertB le a l).all p := by
  induction l with
  | nil => simp [orderedInsertB, ha]
  | cons b t ih =>
    simp only [List.all_cons, Bool.and_eq_true] at hl
    simp only [orderedInsertB]
    by_cases h : le a b = true
    · simp [h, ha, hl.1, hl.2]
    · rw [if_neg h]
      simp only [List.all_cons, Bool.and_eq_true]
      exact ⟨hl.1, ih hl.2⟩

theorem pairwiseBool_orderedInsertB (le : α → α → Bool)
    (htot : ∀ a b, le a b = true ∨ le b a = true)
    (htrans : ∀ a b c, le a b = true → le b c = true → le a c = true)
    (a : α) (l : List α) (hl : pairwiseBool le l = true) :
    pairwiseBool le (orderedInsertB le a l) = true := by
  induction l with
  | nil => simp [orderedInsertB, pairwiseBool]
  | cons b t ih =>
    simp only [pairwiseBool, Bool.and_eq_true] at hl
    simp only [orderedInsertB]
    by_cases h : le a b = true
    · have hat : t.all (le a) = true := by
        refine List.all_eq_true.mpr ?_
        intro x hx
        exact htrans a b x h (List.all_eq_true.mp hl.1 x hx)
      simp [pairwiseBool, h, hat, hl.1, hl.2]
    · have hba : le b a = true := (htot a b).resolve_left h
      rw [if_neg h]
      simp only [pairwiseBool, Bool.and_eq_true]
      exact ⟨all_orderedInsertB le (le b) a t hl.1 hba, ih hl.2⟩

theorem pairwiseBool_insertionSortB (le : α → α → Bool)
    (htot : ∀ a b, le a b = true ∨ le b a = true)
    (htrans : ∀ a b c, le a b = true → le b c = true → le a c = true)
    (l : List α) : pairwiseBool le (insertionSortB le l) = true := by
  induction l with
  | nil => rfl
  | cons a t ih => exact pairwiseBool_orderedInsertB le htot htrans a _ ih

/-- ASCII lowercase of one character (the fragment of Python's `str.lower`
exercised by this code base, whose inputs are ASCII). -/
def lowerChar (c : Char) : Char :=
  match c with
  | 'A' => 'a' | 'B' => 'b' | 'C' => 'c' | 'D' => 'd' | 'E' => 'e'
  | 'F' => 'f' | 'G' => 'g' | 'H' => 'h' | 'I' => 'i' | 'J' => 'j'
  | 'K' => 'k' | 'L' => 'l' | 'M' => 'm' | 'N' => 'n' | 'O' => 'o'
  | 'P' => 'p' | 'Q' => 'q' | 'R' => 'r' | 'S' => 's' | 'T' => 't'
  | 'U' => 'u' | 'V' => 'v' | 'W' => 'w' | 'X' => 'x' | 'Y' => 'y'
  | 'Z' => 'z' | d => d

/-- Python `s.lower()` (ASCII fragment). -/
def lowerStr (s : String) : String := ⟨s.toList.map lowerChar⟩

/-! ## Porter stemmer (`lib/stemmer.py`, class `PorterStemmer`)

The stemmer works on lowercase words.  `_is_consonant` is position
dependent (a `y` is a consonant at position 0 or after a non-consonant),
so we precompute the per-position consonant flags of a word. -/

def vowels : List Char := ['a', 'e', 'i', 'o', 'u']

/-- Consonant flags of `_is_consonant` for positions `i, i+1, ...`, given
the flag of position `i-1` (`none` at the start of the word). -/
def consFlagsAux : Option Bool → List Char → List Bool
  | _, [] => []
  | prev, c :: rest =>
    let f :=
      if vowels.contains c then false
      else if c = 'y' then
        match prev with
        | none => true
        | some p => !p
      else true
    f :: consFlagsAux (some f) rest

/-- `_is_consonant` flags for every position of the word. -/
def consFlags (w : List Char) : List Bool := consFlagsAux none w

/-- Count the vowel-run → consonant-run transitions in a flag list. -/
def countVC : List Bool → Nat
  | [] => 0
  | [_] => 0
  | a :: b :: rest => (if !a && b then 1 else 0) + countVC (b :: rest)

/-- `PorterStemmer._measure`: number of VC sequences of the word. -/
def measureW (w : List Char) : Nat := countVC (consFlags w)

/-- `PorterStemmer._has_vowel`. -/
def hasVowel (w : List Char) : Bool := (consFlags w).any (fun b => !b)

/-- `PorterStemmer._ends_double_consonant`. -/
def endsDoubleCons (w : List Char) : Bool :=
  match w.reverse, (consFlags w).reverse with
  | c1 :: c2 :: _, f1 :: _ => c1 == c2 && f1
  | _, _ => false

/-- `PorterStemmer._ends_cvc`. -/
def endsCVC (w : List Char) : Bool :=
  match (consFlags w).reverse, w.reverse with
  | f1 :: f2 :: f3 :: _, c1 :: _ =>
    f3 && !f2 && f1 && !(['w', 'x', 'y'].contains c1)
  | _, _ => false

/-- Python `word.endswith(suf)` over char lists. -/
def endsWithL (w suf : List Char) : Bool := suf.isSuffixOf w

/-- Drop the last `k` characters (`word[:-k]`). -/
def dropSuf (w : List Char) (k : Nat) : List Char := w.take (w.length - k)

/-- Step 1a of `PorterStemmer.stem`. -/
def step1a (w : List Char) : List Char :=
  if endsWithL w "sses".toList then dropSuf w 2
  else if endsWithL w "ies".toList then dropSuf w 2
  else if endsWithL w "ss".toList then w
  else if endsWithL w "s".toList then dropSuf w 1
  else w

/-- The fix-up applied after stripping `ed`/`ing` in step 1b. -/
def step1bFixup (w : List Char) : List Char :=
  if endsWithL w "at".toList || endsWithL w "bl".toList || endsWithL w "iz".toList then
    w ++ ['e']
  else if endsDoubleCons w && !(['l', 's', 'z'].contains (w.getLastD ' ')) then
    dropSuf w 1
  else if measureW w == 1 && endsCVC w then w ++ ['e']
  else w

/-- Step 1b of `PorterStemmer.stem`. -/
def step1b (w : List Char) : List Char :=
  if endsWithL w "eed".toList then
    if measureW (dropSuf w 3) > 0 then dropSuf w 1 else w
  else if endsWithL w "ed".toList then
    let st := dropSuf w 2
    if hasVowel st then step1bFixup st else w
  else if endsWithL w "ing".toList then
    let st := dropSuf w 3
    if hasVowel st then step1bFixup st else w
  else w

/-- Step 1c of `PorterStemmer.stem`. -/
def step1c (w : List Char) : List Char :=
  if endsWithL w "y".toList && hasVowel (dropSuf w 1) then dropSuf w 1 ++ ['i']
  else w

def step2Rules : List (List Char × List Char) :=
  [("ational".toList, "ate".toList), ("tional".toList, "tion".toList),
   ("enci".toList, "ence".toList), ("anci".toList, "ance".toList),
   ("izer".toList, "ize".toList), ("isation".toList, "ize".toList),
   ("ization".toList, "ize".toList), ("ation".toList, "ate".toList),
   ("ator".toList, "ate".toList), ("alism".toList, "al".toList),
   ("iveness".toList, "ive".toList), ("fulness".toList, "ful".toList),
   ("ousness".toList, "ous".toList), ("aliti".toList, "al".toList),
   ("iviti".toList, "ive".toList), ("biliti".toList, "ble".toList)]

def step3Rules : List (List Char × List Char) :=
  [("icate".toList, "ic".toList), ("ative".toList, "".toList),
   ("alize".toList, "al".toList), ("iciti".toList, "ic".toList),
   ("ical".toList, "ic".toList), ("ful".toList, "".toList),
   ("ness".toList, "".toList)]

/-- Steps 2 and 3 share this shape: the first suffix that matches ends the
loop (Python `break`), and the rewrite fires only when the residual stem
has positive measure. -/
def applySuffixRules (rules : List (List Char × List Char)) (w : List Char) :
    List Char :=
  match rules.find? (fun r => endsWithL w r.1) with
  | none => w
  | some (suf, repl) =>
    let st := dropSuf w suf.length
    if measureW st > 0 then st ++ repl else w

def step4Sufs : List (List Char) :=
  ["al", "ance", "ence", "er", "ic", "able", "ible", "ant", "ement", "ment",
   "ent", "ion", "ou", "ism", "ate", "iti", "ous", "ive", "ize"].map
    String.toList

/-- Step 4 of `PorterStemmer.stem`: measure must exceed 1, and `ion` is only
stripped when the residual stem ends in `s` or `t`. -/
def step4 (w : List Char) : List Char :=
  match step4Sufs.find? (fun s => endsWithL w s) with
  | none => w
  | some suf =>
    let st := dropSuf w suf.length
    if measureW st > 1 then
      if suf == "ion".toList then
        if (match st.getLast? with
            | some c => c == 's' || c == 't'
            | none => false) then st
        else w
      else st
    else w

/-- Step 5a of `PorterStemmer.stem`. -/
def step5a (w : List Char) : List Char :=
  if endsWithL w "e".toList then
    let st := dropSuf w 1
    if measureW st > 1 || (measureW st == 1 && !endsCVC st) then st else w
  else w

/-- Step 5b of `PorterStemmer.stem`. -/
def step5b (w : List Char) : List Char :=
  if measureW w > 1 && endsDoubleCons w && endsWithL w "l".toList then dropSuf w 1
  else w

/-- The step pipeline of `PorterStemmer.stem` on an already-lowercased word
of length `> 2`. -/
def stemSteps (w : List Char) : List Char :=
  step5b (step5a (step4 (applySuffixRules step3Rules
    (applySuffixRules step2Rules (step1c (step1b (step1a w)))))))

/-- `PorterStemmer.stem`: lowercase, return words of length `≤ 2` as they
are, otherwise run the step pipeline. -/
def stem (word : String) : String :=
  let w := lowerStr word
  if w.length ≤ 2 then w else ⟨stemSteps w.toList⟩

/-! ## Tokenization (`lib/stemmer.py`, `stem_text` / `stem_text_with_counts`)

Python extracts words with `re.findall(r'\b[a-zA-Z]+\b', text.lower())`: a
maximal run of ASCII letters matches exactly when the characters next to
the run (if any) are not word characters (`\w` = letters, digits, `_`). -/

def isAsciiLetter (c : Char) : Bool :=
  ('a' ≤ c && c ≤ 'z') || ('A' ≤ c && c ≤ 'Z')

def isWordChar (c : Char) : Bool :=
  isAsciiLetter c || c.isDigit || c == '_'

/-- True when the character before a letter run (if any) is not a word
character, i.e. `\b` holds there. -/
def boundaryB : Option Char → Bool
  | none => true
  | some p => !isWordChar p

/-- Walk the text accumulating the current letter run (reversed) and the
character that preceded it; emit each maximal letter run both of whose
neighbours are word boundaries. -/
def tokenizeAux (before : Option Char) (run : List Char) :
    List Char → List (List Char)
  | [] => if run ≠ [] && boundaryB before then [run.reverse] else []
  | c :: rest =>
    if isAsciiLetter c then tokenizeAux before (c :: run) rest
    else
      (if run ≠ [] && boundaryB before && !isWordChar c then [run.reverse]
       else []) ++
        tokenizeAux (some c) [] rest

/-- The word list `re.findall(r'\b[a-zA-Z]+\b', text)`. -/
def findWords (text : String) : List (List Char) := tokenizeAux none [] text.toList

/-- `stem_text`: unique stems of the words of length `> 2` of the lowercased
text.  Python returns a set; we model it as the first-occurrence-ordered
list of its elements (only membership is ever consumed). -/
def stem_text (text : String) : List String :=
  dedupFirst
    (((findWords (lowerStr text)).filter (fun w => w.length > 2)).map
      (fun w => stem ⟨w⟩))

/-- `stem_text_with_counts`: stem-frequency map (`dict(Counter(stems))`),
modelled as an association list keyed in first-occurrence order. -/
def stem_text_with_counts (text : String) : List (String × Nat) :=
  let stems :=
    ((findWords (lowerStr text)).filter (fun w => w.length > 2)).map
      (fun w => stem ⟨w⟩)
  (dedupFirst stems).map (fun s => (s, stems.count s))

/-- `stem_query`. -/
def stem_query (query : String) : List String := stem_text query

/-! ## Log data model (`lib/extraction.py`)

A task/todo is a JSON object; the extractor reads the keys `content`,
`status`, `id` (whose *absence* is observable, hence `Option`), and the
keys `subject`, `description`, `activeForm`, `priority`, `owner` (always
read with default `''`, hence plain `String`). -/

structure TaskDict where
  content : Option String := none
  status : Option String := none
  id : Option String := none
  subject : String := ""
  description : String := ""
  activeForm : String := ""
  priority : String := ""
  owner : String := ""
deriving DecidableEq

/-- Python truthiness of an optional string: present and non-empty. -/
def optTruthy : Option String → Bool
  | none => false
  | some s => s ≠ ""

/-- The keys of a `tool_use` item's `input` object that the extractor
reads.  `TaskCreate` normalizes the input object itself as a task, so the
task-shaped keys are grouped in `task`. -/
structure ToolInput where
  todos : List TaskDict := []
  task : TaskDict := {}
  taskId : String := ""
  status : Option String := none
  file_path : String := ""
  command : String := ""
  url : String := ""
deriving DecidableEq

/-- One item of an `assistant` message's `content` array: a plain string, a
`{type: "text"}` object, a `{type: "tool_use"}` object, or anything else. -/
inductive ContentItem where
  | str (s : String)
  | textItem (text : String)
  | toolUse (name : String) (input : ToolInput)
  | other
deriving DecidableEq

/-- A message's `content` value: a plain string, an array of items, or an
unrecognized shape (also used for an absent `content` key, which every
reader treats as `''` or `[]`). -/
inductive MsgContent where
  | str (s : String)
  | items (l : List ContentItem)
  | other
deriving DecidableEq

structure Message where
  content : MsgContent
deriving DecidableEq

/-- One parsed JSONL line.  `message = none` models an absent or falsy
`message` value; `todos = []` models an absent or empty `todos` array. -/
structure Entry where
  type : String := ""
  message : Option Message := none
  timestamp : Option String := none
  sessionId : Option String := none
  todos : List TaskDict := []
deriving DecidableEq

/-- `extract_text_content`: a plain string is returned as is; for an array
the string items and the `text` of `{type:"text"}` items are joined with
single spaces; other shapes yield `''`. -/
def extract_text_content : MsgContent → String
  | .str s => s
  | .items l =>
    " ".intercalate (l.filterMap fun
      | .str s => some s
      | .textItem t => some t
      | _ => none)
  | .other => ""

/-- `is_local_command_noise`. -/
def is_local_command_noise (content : String) : Bool :=
  if content = "" then false
  else startsWithB content "Caveat: The messages below were generated"

/-- Search for `re.search(r'<command-name>([^<]+)</command-name>', s)`:
try every start position left to right; at a position the pattern matches
when the open tag is followed by a nonempty run of non-`<` characters and
then immediately by the close tag. -/
def searchCommandName : List Char → Option (List Char)
  | [] => none
  | l@(_ :: t) =>
    let here :=
      if "<command-name>".toList.isPrefixOf l then
        let rest := l.drop "<command-name>".toList.length
        let run := rest.takeWhile (fun c => c ≠ '<')
        if run ≠ [] && "</command-name>".toList.isPrefixOf (rest.drop run.length)
        then some run
        else none
      else none
    match here with
    | some r => some r
    | none => searchCommandName t

/-- `clean_local_command`: rewrite command markup into short placeholders. -/
def clean_local_command (content : String) : String :=
  if containsSub content "<command-name>" then
    match searchCommandName content.toList with
    | some nm => "[" ++ String.mk nm ++ "]"
    | none =>
      if containsSub content "<local-command-stdout>" then "[command output]"
      else content
  else if containsSub content "<local-command-stdout>" then "[command output]"
  else content

/-- The text parts a single entry contributes to `extract_full_text`. -/
def fullTextParts (e : Entry) : List String :=
  match e.message with
  | none => []
  | some m =>
    if e.type = "user" then
      let content := extract_text_content m.content
      if content ≠ "" && !is_local_command_noise content then
        [clean_local_command content]
      else []
    else if e.type = "assistant" then
      let itemsL : List ContentItem :=
        match m.content with
        | .items l => l
        | _ => []
      itemsL.filterMap fun
        | .textItem t => some t
        | _ => none
    else []

/-- `extract_full_text`: all indexable text of the conversation, joined
with single spaces. -/
def extract_full_text (entries : List Entry) : String :=
  " ".intercalate (entries.map fullTextParts).flatten

/-- `normalize_task`: a task that already has a `content` key is returned
unchanged; otherwise the Task-format fields are converted, synthesizing
`content` from `subject` and the truncated `description`. -/
def normalize_task (task : TaskDict) : TaskDict :=
  if task.content.isSome then task
  else
    let subject := task.subject
    let description := task.description
    let content :=
      if description ≠ "" then
        subject ++ ": " ++
          (if description.length > 100 then strTake description 100 ++ "..."
           else description)
      else subject
    { content := some content
      status := some (task.status.getD "pending")
      activeForm := task.activeForm
      priority := task.priority
      id := some (task.id.getD "")
      subject := subject
      description := if description ≠ "" then strTake description 200 else ""
      owner := task.owner }

/-- One todo snapshot (`message_index`, `timestamp`, `todos`). -/
structure Snapshot where
  message_index : Nat
  timestamp : Option String := none
  todos : List TaskDict
deriving DecidableEq

/-- One episode produced by `calculate_episodes`; `message_range` is the
pair `(range_fst, range_snd)` and `message_count` is their (possibly
negative) difference. -/
structure Episode where
  title : String
  range_fst : Nat
  range_snd : Nat
  completed_at : Nat
  message_count : Int
deriving DecidableEq

/-- The inner loop of `calculate_episodes` over one snapshot's todos:
emits an episode for each newly completed, non-empty content; returns the
produced episodes with the updated closed-set and boundary. -/
def episodesForTodos (idx : Nat) :
    List TaskDict → List String → Nat → List Episode × List String × Nat
  | [], closed, prev => ([], closed, prev)
  | t :: ts, closed, prev =>
    let c := t.content.getD ""
    if t.status == some "completed" && c ≠ "" && !(closed.contains c) then
      let ep : Episode :=
        ⟨c, prev, idx, idx, (idx : Int) - (prev : Int)⟩
      let rest := episodesForTodos idx ts (c :: closed) idx
      (ep :: rest.1, rest.2)
    else episodesForTodos idx ts closed prev

/-- The outer loop of `calculate_episodes` over the snapshots. -/
def episodesAux : List Snapshot → List String → Nat → List Episode
  | [], _, _ => []
  | s :: rest, closed, prev =>
    let step := episodesForTodos s.message_index s.todos closed prev
    step.1 ++ episodesAux rest step.2.1 step.2.2

/-- `calculate_episodes`. -/
def calculate_episodes (snaps : List Snapshot) : List Episode :=
  match snaps with
  | [] => []
  | _ => episodesAux snaps [] 0

/-! ## The extraction loop of `extract_conversation_data` -/

/-- The mutable locals of `extract_conversation_data`'s entry loop. -/
structure ExtractState where
  todo_snapshots : List Snapshot := []
  message_index : Nat := 0
  session_id : Option String := none
  timestamp : Option String := none
  user_messages : List String := []
deriving DecidableEq

/-- Handling of one `tool_use` content item inside an assistant entry:
`TodoWrite` replaces the whole list, `TaskCreate` appends one normalized
task (with a synthesized sequential id when absent or empty), `TaskUpdate`
re-emits the last snapshot with the matching todo's status replaced. -/
def processToolUse (st : ExtractState) (ts : Option String) (name : String)
    (input : ToolInput) : ExtractState :=
  if name = "TodoWrite" then
    { st with
      todo_snapshots := st.todo_snapshots ++
        [⟨st.message_index, ts, input.todos.map normalize_task⟩] }
  else if name = "TaskCreate" then
    let task := normalize_task input.task
    let existing :=
      match st.todo_snapshots.getLast? with
      | some snap => snap.todos
      | none => []
    let next_id := toString (existing.length + 1)
    let task := if optTruthy task.id then task else { task with id := some next_id }
    { st with
      todo_snapshots := st.todo_snapshots ++
        [⟨st.message_index, ts, existing ++ [task]⟩] }
  else if name = "TaskUpdate" then
    let task_id := input.taskId
    match st.todo_snapshots.getLast?, input.status with
    | some snap, some new_status =>
      if task_id ≠ "" && new_status ≠ "" then
        let updated := snap.todos.map fun t =>
          if t.id == some task_id then { t with status := some new_status } else t
        { st with
          todo_snapshots := st.todo_snapshots ++
            [⟨st.message_index, ts, updated⟩] }
      else st
    | _, _ => st
  else st

/-- Loop-body statement 1: remember the first truthy session id. -/
def entryStepSession (st : ExtractState) (e : Entry) : ExtractState :=
  if e.sessionId.isSome && !optTruthy st.session_id then
    { st with session_id := e.sessionId }
  else st

/-- Loop-body statement 2: collect the user message text (truncated to
200 characters) and the first user timestamp. -/
def entryStepUserText (st : ExtractState) (e : Entry) : ExtractState :=
  match e.message with
  | some m =>
    if e.type = "user" then
      let msg_content := extract_text_content m.content
      if msg_content ≠ "" then
        let st := { st with user_messages := st.user_messages ++ [strTake msg_content 200] }
        if !optTruthy st.timestamp then { st with timestamp := e.timestamp } else st
      else st
    else st
  | none => st

/-- Loop-body statement 3: advance the message index for user/assistant
entries. -/
def entryStepIndex (st : ExtractState) (e : Entry) : ExtractState :=
  if e.type = "user" || e.type = "assistant" then
    { st with message_index := st.message_index + 1 }
  else st

/-- Loop-body statement 4: process an assistant entry's `tool_use` items. -/
def entryStepTools (st : ExtractState) (e : Entry) : ExtractState :=
  match e.message with
  | some m =>
    if e.type = "assistant" then
      let itemsL : List ContentItem :=
        match m.content with
        | .items l => l
        | _ => []
      itemsL.foldl
        (fun s it =>
          match it with
          | .toolUse nm inp => processToolUse s e.timestamp nm inp
          | _ => s)
        st
    else st
  | none => st

/-- Loop-body statement 5: todos carried on a user entry become a
snapshot. -/
def entryStepUserTodos (st : ExtractState) (e : Entry) : ExtractState :=
  if e.type = "user" && e.todos ≠ [] then
    { st with
      todo_snapshots := st.todo_snapshots ++
        [⟨st.message_index, e.timestamp, e.todos.map normalize_task⟩] }
  else st

/-- The body of `extract_conversation_data`'s `for entry in entries` loop,
in the source's statement order: session id, user text and timestamp,
message-index increment, assistant tool uses, user-borne todos. -/
def processEntry (st : ExtractState) (e : Entry) : ExtractState :=
  entryStepUserTodos
    (entryStepTools (entryStepIndex (entryStepUserText (entryStepSession st e) e) e) e) e

/-- The whole entry loop. -/
def extractLoop (entries : List Entry) : ExtractState :=
  entries.foldl processEntry {}

/-- The three lists of `final_todos`. -/
structure FinalTodos where
  completed : List String := []
  in_progress : List String := []
  pending : List String := []
deriving DecidableEq

/-- The `final_todos` loop over the latest snapshot's todos.  The lookup
`final_todos[status]` raises `KeyError` for a status outside the three
known keys — but only for todos with non-empty content, because the lookup
sits inside `if content:`; `none` models that exception. -/
def buildFinalTodos : List TaskDict → Option FinalTodos
  | [] => some {}
  | t :: ts =>
    let status := t.status.getD "pending"
    let content := t.content.getD ""
    match buildFinalTodos ts with
    | none => none
    | some f =>
      if content ≠ "" then
        if status = "completed" then some { f with completed := content :: f.completed }
        else if status = "in_progress" then
          some { f with in_progress := content :: f.in_progress }
        else if status = "pending" then some { f with pending := content :: f.pending }
        else none
      else some f

/-- Add to a Python `set` modelled as an insertion-ordered duplicate-free
list. -/
def setAdd (l : List String) (x : String) : List String :=
  if l.contains x then l else l ++ [x]

/-- `os.path.basename` (POSIX fragment). -/
def path_basename (p : String) : String := ((strSplitOn p "/").getLast?).getD ""

/-- `os.path.dirname` (POSIX fragment). -/
def path_dirname (p : String) : String :=
  "/".intercalate ((strSplitOn p "/").dropLast)

/-- The activity signals of `extract_activity_signals`:
`(files_touched, commands_run, urls_fetched)`.  Python accumulates into
`set`s whose iteration order is unspecified; the model fixes insertion
order. -/
def extract_activity_signals (entries : List Entry) :
    List String × List String × List String :=
  entries.foldl
    (fun acc e =>
      match e.message with
      | none => acc
      | some m =>
        if e.type ≠ "assistant" then acc
        else
          let itemsL : List ContentItem :=
            match m.content with
            | .items l => l
            | _ => []
          itemsL.foldl
            (fun acc it =>
              match it with
              | .toolUse nm inp =>
                let acc :=
                  if nm = "Read" ∨ nm = "Write" ∨ nm = "Edit" then
                    if inp.file_path ≠ "" then
                      (setAdd (setAdd acc.1 (path_basename inp.file_path))
                          inp.file_path,
                        acc.2)
                    else acc
                  else acc
                let acc :=
                  if nm = "Bash" then
                    if inp.command ≠ "" then
                      let parts :=
                        (strSplitPred Char.isWhitespace inp.command).filter (fun s => s ≠ "")
                      let cmds :=
                        match parts.head? with
                        | some h => setAdd acc.2.1 h
                        | none => acc.2.1
                      (acc.1, setAdd cmds (strTake inp.command 100), acc.2.2)
                    else acc
                  else acc
                if nm = "WebFetch" then
                  if inp.url ≠ "" then (acc.1, acc.2.1, setAdd acc.2.2 inp.url)
                  else acc
                else acc
              | _ => acc)
            acc)
    ([], [], [])

/-- The fields of the record returned by `extract_conversation_data` that
the specification's claims mention.  (`jsonl_file` handling is I/O: the
parsed lines are passed in as `entries` and the parent-directory name as
`project`.) -/
structure ConvData where
  session_id : String
  project : String
  first_message : String
  user_message_arc : List String
  user_message_count : Nat
  timestamp : String
  todo_snapshots : List Snapshot
  final_todos : FinalTodos
  work_items : List String
  episodes : List Episode
  message_count : Nat
  files_touched : List String
  commands_run : List String
  urls_fetched : List String
  term_counts : List (String × Nat)
deriving DecidableEq

/-- The todos of the latest snapshot (`todo_snapshots[-1]['todos']` when
snapshots exist, else the empty list the source never loops over). -/
def lastSnapshotTodos (snaps : List Snapshot) : List TaskDict :=
  match snaps.getLast? with
  | some s => s.todos
  | none => []

/-- `extract_conversation_data` after the entry loop: final todos (the one
failure point, a `KeyError` on an unknown status), episodes, work items,
searchable text and the assembled record. -/
def extract_conversation_data (project : String) (entries : List Entry) :
    Option ConvData :=
  let st := extractLoop entries
  let lastTodos := lastSnapshotTodos st.todo_snapshots
  match buildFinalTodos lastTodos with
  | none => none
  | some final_todos =>
    let episodes :=
      if st.todo_snapshots ≠ [] then calculate_episodes st.todo_snapshots else []
    let episode_titles := (episodes.map (·.title)).filter (fun t => t ≠ "")
    let work_items :=
      dedupFirst (final_todos.completed ++ final_todos.in_progress ++
        final_todos.pending ++ episode_titles)
    let task_descriptions :=
      lastTodos.filterMap fun t =>
        if t.description ≠ "" then some t.description else none
    let user_message_arc :=
      match st.user_messages.head? with
      | none => []
      | some h =>
        if st.user_messages.length > 1 then [h, st.user_messages.getLastD h]
        else [h]
    let activity := extract_activity_signals entries
    let all_searchable_text :=
      " ".intercalate
        [extract_full_text entries,
         " ".intercalate work_items,
         " ".intercalate task_descriptions,
         " ".intercalate activity.1,
         " ".intercalate activity.2.1]
    some
      { session_id := if optTruthy st.session_id then st.session_id.getD "" else "unknown"
        project := project
        first_message := st.user_messages.head?.getD "No message"
        user_message_arc := user_message_arc
        user_message_count := st.user_messages.length
        timestamp := if optTruthy st.timestamp then st.timestamp.getD "" else ""
        todo_snapshots := st.todo_snapshots
        final_todos := final_todos
        work_items := work_items
        episodes := episodes
        message_count := st.message_index
        files_touched := activity.1
        commands_run := activity.2.1
        urls_fetched := activity.2.2
        term_counts := stem_text_with_counts all_searchable_text }

/-! ## Cache store (`lib/cache.py`)

A cached value is a JSON object; `index_files` observes the presence of
its `mtime`, `term_counts` and `episodes` keys and otherwise treats it
opaquely, so the model keeps presence flags next to the extracted record.
Disk persistence (`save_cache_to_disk`) is I/O and out of the model; the
`cache_modified` flag that triggers it is kept. -/

structure CacheEntryR where
  mtime : Option Nat := none
  term_counts_present : Bool := true
  episodes_present : Bool := true
  record : ConvData
  file_path : String := ""
deriving DecidableEq

/-- The cache map (`_conversation_cache`), keyed by session id. -/
def CacheMap : Type := String → Option CacheEntryR

/-- `is_entry_stale`: a cached record missing the `term_counts` key or the
`episodes` key is stale. -/
def is_entry_stale (e : CacheEntryR) : Bool :=
  if !e.term_counts_present then true
  else if !e.episodes_present then true
  else false

/-- One log file seen by the scan: its path, current mtime and parsed
lines (`glob` and `os.path.getmtime` are I/O, modelled as inputs). -/
structure LogFile where
  path : String
  mtime : Nat
  entries : List Entry
deriving DecidableEq

/-- Replace every occurrence of a (nonempty) pattern, scanning left to
right — Python's `str.replace` as used here; the fuel argument is the
input length, which bounds the recursion. -/
def replaceFuel (pat repl : List Char) : Nat → List Char → List Char
  | 0, l => l
  | n + 1, l =>
    match l with
    | [] => []
    | c :: t =>
      if pat.isPrefixOf l && !pat.isEmpty then
        repl ++ replaceFuel pat repl n (l.drop pat.length)
      else c :: replaceFuel pat repl n t

/-- Python `s.replace(pat, repl)` (for nonempty `pat`). -/
def strReplace (s pat repl : String) : String :=
  ⟨replaceFuel pat.toList repl.toList s.toList.length s.toList⟩

/-- Session id of a log file (`basename` minus `.jsonl`). -/
def sessionIdOfPath (p : String) : String :=
  strReplace (path_basename p) ".jsonl" ""

/-- The reparse decision of `index_files` for one file, in source order:
unknown session id, advanced mtime (cached value defaulting to 0), or a
stale entry. -/
def needs_reparse (cache : CacheMap) (session_id : String) (current_mtime : Nat) :
    Bool :=
  match cache session_id with
  | none => true
  | some e =>
    if e.mtime.getD 0 < current_mtime then true
    else is_entry_stale e

/-- The body of `index_files`' per-file loop: decide, maybe re-extract and
replace the entry wholesale, and track the modified flag.  A raising
extraction (the `except` branch) leaves cache and flag untouched. -/
def processFile (acc : CacheMap × Bool) (f : LogFile) : CacheMap × Bool :=
  let session_id := sessionIdOfPath f.path
  if needs_reparse acc.1 session_id f.mtime then
    match extract_conversation_data (path_basename (path_dirname f.path)) f.entries with
    | some d =>
      (fun s => if s = session_id then
          some { mtime := some f.mtime, term_counts_present := true,
                 episodes_present := true, record := d, file_path := f.path }
        else acc.1 s,
       true)
    | none => acc
  else acc

/-- `index_files` over the scanned files; returns the updated cache and
whether it was modified (which, in the source, triggers the single
whole-cache write). -/
def index_files (cache : CacheMap) (files : List LogFile) : CacheMap × Bool :=
  files.foldl processFile (cache, false)

/-! ## Session-id resolution (`lib/commands/shared.py`) -/

/-- The second component of `resolve_session_id`'s result: `none`, a list
of ambiguous matches, or a not-found error string. -/
inductive ResolveSnd where
  | ok
  | matches (l : List String)
  | err (s : String)
deriving DecidableEq

/-- `resolve_session_id` over the cache's key list: exact match first,
then unique-prefix match, then ambiguity or not-found. -/
def resolve_session_id (partial_id : String) (cacheKeys : List String) :
    Option String × ResolveSnd :=
  if cacheKeys.contains partial_id then (some partial_id, .ok)
  else
    let ms := cacheKeys.filter (fun sid => startsWithB sid partial_id)
    if ms.length = 1 then (ms.head?, .ok)
    else if ms.length > 1 then (none, .matches ms)
    else (none, .err ("Session \"" ++ partial_id ++ "\" not found."))

/-! ## Search ranker (`lib/commands/search.py`)

External collaborators are explicit parameters: `notes` is the notes
store's per-session string list, `parseTs` models the stdlib ISO-8601
parser `datetime.fromisoformat` (returning an instant as an integer
timestamp), `now` is the current instant used by the recency boost. -/

def SCORE_WORK_ITEMS : Nat := 3
def SCORE_NOTES : Nat := 3
def SCORE_FILES : Nat := 2
def SCORE_COMMANDS : Nat := 1
def SCORE_TEXT : Nat := 1
def SCORE_MULTI_TERM_BONUS : Nat := 2

/-- `cache.parse_timestamp`: empty or unparseable strings give `None`. -/
def parse_timestamp (parseTs : String → Option Int) (ts : String) : Option Int :=
  if ts = "" then none else parseTs ts

/-- `formatters.recency_boost`: +2 under 24 hours, +1 under 7 days. -/
def recency_boost (parseTs : String → Option Int) (now : Int) (timestamp : String) :
    Nat :=
  if timestamp = "" then 0
  else
    match parseTs timestamp with
    | none => 0
    | some dt =>
      let age := now - dt
      if age < 86400 then 2 else if age < 604800 then 1 else 0

/-- The two timestamp-range `continue`s of the search loop: a record is
skipped when a bound and the record instant are both present and the
instant lies strictly outside the bound. -/
def timeKeepB (after_dt before_dt conv_dt : Option Int) : Bool :=
  (match after_dt, conv_dt with
   | some a, some c => !(decide (c < a))
   | _, _ => true) &&
  (match before_dt, conv_dt with
   | some b, some c => !(decide (c > b))
   | _, _ => true)

/-- The project-filter `continue`: skip when a non-empty project filter is
given and is not a substring of the record's project. -/
def projKeepB (project : Option String) (recProject : String) : Bool :=
  match project with
  | none => true
  | some p => if p ≠ "" then containsSub recProject p else true

/-- The category score of a record before bonuses: each category counts at
most once. -/
def baseScore (workM notesM filesM cmdsM textM : Bool) : Nat :=
  (if workM then SCORE_WORK_ITEMS else 0) +
  (if notesM then SCORE_NOTES else 0) +
  (if filesM then SCORE_FILES else 0) +
  (if cmdsM then SCORE_COMMANDS else 0) +
  (if textM then SCORE_TEXT else 0)

/-- One pre-pagination search result (`summary`, `project`, `when`,
`matchSource` and `firstMatch` are display-only strings formatted by the
out-of-scope display layer and are omitted; `_ts` is the record's stored
file mtime). -/
structure SearchResult where
  sessionId : String
  score : Nat
  ts : Nat
  turns : Nat
deriving DecidableEq

/-- A shown result after `del r['_ts']`. -/
structure SearchHit where
  sessionId : String
  score : Nat
  turns : Nat
deriving DecidableEq

def SearchResult.toHit (r : SearchResult) : SearchHit :=
  ⟨r.sessionId, r.score, r.turns⟩

/-- The body of the search loop for one cached record: the project and
timestamp filters (before any scoring), the five binary category checks
with matched-term tracking, the zero-score exclusion, the multi-term bonus
and the recency boost. -/
def scoreRecord (notes : String → List String) (parseTs : String → Option Int)
    (now : Int) (query_terms query_stems : List String)
    (projectF : Option String) (after_dt before_dt : Option Int)
    (sid : String) (e : CacheEntryR) : Option SearchResult :=
  let d := e.record
  if !projKeepB projectF d.project then none
  else
    let conv_dt := parse_timestamp parseTs d.timestamp
    if !timeKeepB after_dt before_dt conv_dt then none
    else
      let work_items_lower := lowerStr (" ".intercalate d.work_items)
      let workTs := query_terms.filter (fun t => containsSub work_items_lower t)
      let notes_lower := lowerStr (" ".intercalate (notes sid))
      let notesTs := query_terms.filter (fun t => containsSub notes_lower t)
      let files_lower := lowerStr (" ".intercalate d.files_touched)
      let filesTs := query_terms.filter (fun t => containsSub files_lower t)
      let commands_lower := lowerStr (" ".intercalate d.commands_run)
      let cmdTs := query_terms.filter (fun t => containsSub commands_lower t)
      let text_matched :=
        query_stems.any (fun s => d.term_counts.any (fun p => p.1 == s))
      let textTs := query_terms.filter (fun t =>
        query_stems.any (fun s =>
          d.term_counts.any (fun p => p.1 == s) && (stem_query t).contains s))
      let matched_terms :=
        dedupFirst (workTs ++ notesTs ++ filesTs ++ cmdTs ++ textTs)
      let score :=
        baseScore (workTs ≠ []) (notesTs ≠ []) (filesTs ≠ []) (cmdTs ≠ [])
          text_matched
      if score = 0 then none
      else
        let score :=
          if matched_terms.length > 1 then
            score + (matched_terms.length - 1) * SCORE_MULTI_TERM_BONUS
          else score
        let score := score + recency_boost parseTs now d.timestamp
        some ⟨sid, score, e.mtime.getD 0, d.user_message_count⟩

/-- Default sort relation: "may come before" for the stable sort by
`(score, _ts)` descending. -/
def descScoreTs (a b : SearchResult) : Bool :=
  decide (b.score < a.score) || (b.score == a.score && decide (b.ts ≤ a.ts))

/-- `--recent` sort relation: `_ts` descending only. -/
def descTs (a b : SearchResult) : Bool := decide (b.ts ≤ a.ts)

/-- The search pipeline up to and including the sort: filter and score
every cached record in iteration order, then sort (Python's stable
`list.sort` with `reverse=True`; the `or ''` fallback on `_ts`, reachable
only for mtime 0, is dropped). -/
def searchSorted (notes : String → List String) (parseTs : String → Option Int)
    (now : Int) (query : String) (projectF : Option String)
    (after before : Option String) (recent : Bool)
    (cache : List (String × CacheEntryR)) : List SearchResult :=
  let after_dt :=
    match after with
    | some s => if s ≠ "" then parse_timestamp parseTs s else none
    | none => none
  let before_dt :=
    match before with
    | some s => if s ≠ "" then parse_timestamp parseTs s else none
    | none => none
  let query_terms :=
    (strSplitPred Char.isWhitespace (lowerStr query)).filter (fun t => t ≠ "")
  let query_stems := stem_query query
  let results :=
    cache.filterMap fun p =>
      scoreRecord notes parseTs now query_terms query_stems projectF
        after_dt before_dt p.1 p.2
  if recent then insertionSortB descTs results
  else insertionSortB descScoreTs results

/-- The structured payload of `search`: the sliced page and the total
count before slicing. -/
structure SearchOut where
  results : List SearchHit
  totalMatches : Nat
deriving DecidableEq

/-- `search`: sort, drop `_ts`, and paginate with `results[skip:skip+limit]`. -/
def search (notes : String → List String) (parseTs : String → Option Int)
    (now : Int) (query : String) (limit skip : Nat) (projectF : Option String)
    (after before : Option String) (recent : Bool)
    (cache : List (String × CacheEntryR)) : SearchOut :=
  let sorted := searchSorted notes parseTs now query projectF after before recent cache
  { results := ((sorted.drop skip).take limit).map SearchResult.toHit
    totalMatches := sorted.length }

/-! ## Auxiliary definitions used by the claim statements -/

/-- A concrete executable stand-in for the stdlib ISO-8601 parser used
when a claim is evaluated on a closed input: parse a plain decimal
instant, `none` otherwise (in particular `parseN "" = none`, like
`parse_timestamp`). -/
def parseN (s : String) : Option Int :=
  let cs := s.toList
  if cs ≠ [] && cs.all Char.isDigit then
    some (Int.ofNat (cs.foldl (fun n c => n * 10 + (c.toNat - 48)) 0))
  else none

/-- An empty notes store. -/
def noNotes : String → List String := fun _ => []

/-- The truthy contents of a todo list, in order (the strings the
`final_todos` loop actually files). -/
def truthyContents (l : List TaskDict) : List String :=
  l.filterMap fun t =>
    if t.content.getD "" ≠ "" then some (t.content.getD "") else none

/-- The claim's shape for `final_todos`: the three lists are duplicate
free and no content string occurs in more than one of them. -/
def finalTodosExclusiveB (f : FinalTodos) : Bool :=
  decide f.completed.Nodup && decide f.in_progress.Nodup &&
    decide f.pending.Nodup &&
    f.completed.all (fun c => decide (c ∉ f.in_progress) && decide (c ∉ f.pending)) &&
    f.in_progress.all (fun c => decide (c ∉ f.pending))

/-- Episode ranges in componentwise non-decreasing order. -/
def episodeRangesNonDecreasingB (eps : List Episode) : Bool :=
  pairwiseBool
    (fun a b => decide (a.range_fst ≤ b.range_fst) && decide (a.range_snd ≤ b.range_snd))
    eps

/-- Episode ranges non-overlapping: each `[start, end)` ends before the
next begins. -/
def episodeRangesNonOverlappingB (eps : List Episode) : Bool :=
  pairwiseBool (fun a b => decide (a.range_snd ≤ b.range_fst)) eps

/-- The first episode's range starts at message 0. -/
def firstEpisodeStartsAtZeroB (eps : List Episode) : Bool :=
  match eps with
  | [] => true
  | e :: _ => e.range_fst == 0

/-- Every episode title is a content string that appears with status
`completed` somewhere in the snapshots. -/
def titlesFromCompletedB (snaps : List Snapshot) (eps : List Episode) : Bool :=
  eps.all fun e =>
    snaps.any fun sn =>
      sn.todos.any fun t =>
        t.status == some "completed" && t.content.getD "" == e.title

/-- Snapshot message indices in non-decreasing order (true of every
snapshot sequence the extractor builds). -/
def snapsMonoB (snaps : List Snapshot) : Bool :=
  pairwiseBool (fun a b => decide (a.message_index ≤ b.message_index)) snaps

/-- The specification's inclusive-exclusive reading of the timestamp
filter: keep exactly when `after <= ts < before` (for whichever bounds are
given). -/
def specTimeKeepB (after_dt before_dt conv_dt : Option Int) : Bool :=
  (match after_dt, conv_dt with
   | some a, some c => decide (a ≤ c)
   | _, _ => true) &&
  (match before_dt, conv_dt with
   | some b, some c => decide (c < b)
   | _, _ => true)

/-- `Option Int` comparison used to phrase the claimed result order. -/
def optIntLeB : Option Int → Option Int → Bool
  | some x, some y => decide (x ≤ y)
  | _, _ => true

/-- The conversation timestamp of a session's cached record, as the claim
reads it ("the record timestamp"). -/
def convTsOf (parseTs : String → Option Int) (cache : List (String × CacheEntryR))
    (sid : String) : Option Int :=
  match List.lookup sid cache with
  | some e => parse_timestamp parseTs e.record.timestamp
  | none => none

/-- The claimed default result order: score descending, then the record's
conversation timestamp descending. -/
def hitsOrderedByConvTsB (parseTs : String → Option Int)
    (cache : List (String × CacheEntryR)) (hits : List SearchHit) : Bool :=
  pairwiseBool
    (fun a b =>
      decide (b.score < a.score) ||
        (b.score == a.score &&
          optIntLeB (convTsOf parseTs cache b.sessionId)
            (convTsOf parseTs cache a.sessionId)))
    hits

/-- An entry is a pure system-disclaimer user turn (the noise filter's
target). -/
def isNoiseUserEntry (e : Entry) : Bool :=
  e.type == "user" &&
    (match e.message with
     | some m => is_local_command_noise (extract_text_content m.content)
     | none => false)

/-- The user text one entry contributes to the loop's `user_messages`: a
user entry with a truthy message and truthy extracted text contributes it
truncated to 200 characters — with no noise filtering. -/
def userTextOf (e : Entry) : Option String :=
  match e.message with
  | some m =>
    if e.type = "user" then
      let c := extract_text_content m.content
      if c ≠ "" then some (strTake c 200) else none
    else none
  | none => none

/-- The user messages the extraction loop collects, in closed form. -/
def userMessagesOf (entries : List Entry) : List String :=
  entries.filterMap userTextOf

/-- A minimal cached record used when claims are evaluated on closed
inputs: the given work items, conversation timestamp and stored mtime,
everything else empty. -/
def sampleCacheEntry (wi : List String) (ts : String) (mt : Nat) : CacheEntryR :=
  { mtime := some mt,
    record :=
      { session_id := "s", project := "", first_message := "",
        user_message_arc := [], user_message_count := 0, timestamp := ts,
        todo_snapshots := [], final_todos := {}, work_items := wi,
        episodes := [], message_count := 0, files_touched := [],
        commands_run := [], urls_fetched := [], term_counts := [] } }

/-- Episodes chained from boundary `p` to boundary `q`: each episode
starts where the previous one ended (the segmenter's `prev_message_idx`
bookkeeping), with a valid range. -/
def Chained : Nat → List Episode → Nat → Prop
  | p, [], q => p = q
  | p, e :: rest, q => e.range_fst = p ∧ p ≤ e.range_snd ∧ Chained e.range_snd rest q

/-- Invariant of the extraction loop: the snapshots built so far have
non-decreasing message indices, all bounded by the current index. -/
def StInv (st : ExtractState) : Prop :=
  snapsMonoB st.todo_snapshots = true ∧
  ∀ sn ∈ st.todo_snapshots, sn.message_index ≤ st.message_index

/-- `st'` extends `st`: the message index has not decreased and the
snapshot list grew by a tail of snapshots whose indices lie between the
two message indices, in non-decreasing order. -/
def Extends (st st' : ExtractState) : Prop :=
  st.message_index ≤ st'.message_index ∧
  ∃ tail, st'.todo_snapshots = st.todo_snapshots ++ tail ∧
    snapsMonoB tail = true ∧
    ∀ sn ∈ tail, st.message_index ≤ sn.message_index ∧
      sn.message_index ≤ st'.message_index

/-! ## Small supporting lemmas -/

theorem isPrefixOf_refl (l : List Char) : l.isPrefixOf l = true := by
  induction l with
  | nil => rfl
  | cons c t ih => simp [List.isPrefixOf, ih]

theorem startsWithB_self (s : String) : startsWithB s s = true :=
  isPrefixOf_refl s.toList

/-! ## Claim C4 — stemming determinism and idempotence -/

/-- C4 (amended): stemming is deterministic — equal inputs always produce
equal outputs — and idempotent on the module's documented examples; it is
not idempotent for every word (see `stem_not_idempotent`). -/
theorem stem_deterministic :
    (∀ w v : String, w = v → stem w = stem v) ∧
    stem (stem "implementing") = stem "implementing" ∧
    stem (stem "implemented") = stem "implemented" :=
  ⟨fun _ _ h => congrArg stem h, by decide, by decide⟩

/-- C4 counterexample: `stem` is not idempotent — `"decision"` stems to
`"decis"`, which stems again to `"deci"`. -/
theorem stem_not_idempotent :
    stem "decision" = "decis" ∧ stem (stem "decision") = "deci" ∧
    stem (stem "decision") ≠ stem "decision" :=
  ⟨by decide, by decide, by decide⟩

/-- C4 witness. -/
theorem stem_deterministic_witness : stem "decision" = stem "decision" :=
  stem_deterministic.1 "decision" "decision" rfl

/-! ## Claim C9 — session-id resolution -/

/-- C9: exact matches win with no ambiguity even when the id is a proper
prefix of other keys; ambiguity arises exactly when the id is not a key
and at least two keys start with it; not-found arises exactly when no key
starts with it. -/
theorem resolve_session_id_spec (partial_id : String) (cacheKeys : List String) :
    (cacheKeys.contains partial_id = true →
      resolve_session_id partial_id cacheKeys = (some partial_id, .ok)) ∧
    ((∃ l, (resolve_session_id partial_id cacheKeys).2 = .matches l) ↔
      cacheKeys.contains partial_id = false ∧
        2 ≤ (cacheKeys.filter (fun sid => startsWithB sid partial_id)).length) ∧
    ((∃ s, (resolve_session_id partial_id cacheKeys).2 = .err s) ↔
      ∀ k ∈ cacheKeys, startsWithB k partial_id = false) := by
  by_cases hc : cacheKeys.contains partial_id = true
  · have hmem : partial_id ∈ cacheKeys := List.elem_iff.mp hc
    refine ⟨fun _ => by simp [resolve_session_id, hmem], ?_, ?_⟩
    · simp [resolve_session_id, hmem, hc]
    · constructor
      · rintro ⟨s, hs⟩
        simp [resolve_session_id, hmem] at hs
      · intro h
        have := h partial_id hmem
        rw [startsWithB_self] at this
        exact absurd this (by simp)
  · have hc' : cacheKeys.contains partial_id = false := by
      simpa using hc
    have hnmem : partial_id ∉ cacheKeys := fun hm => hc (List.elem_iff.mpr hm)
    set ms := cacheKeys.filter (fun sid => startsWithB sid partial_id) with hms
    have hres : resolve_session_id partial_id cacheKeys =
        (if ms.length = 1 then (ms.head?, .ok)
         else if ms.length > 1 then (none, .matches ms)
         else (none, .err ("Session \"" ++ partial_id ++ "\" not found."))) := by
      simp [resolve_session_id, hnmem, hms]
    have hnil : (∀ k ∈ cacheKeys, startsWithB k partial_id = false) ↔ ms = [] := by
      rw [hms]
      constructor
      · intro h
        exact List.filter_eq_nil_iff.mpr fun a ha => by simp [h a ha]
      · intro h a ha
        have := List.filter_eq_nil_iff.mp h a ha
        simpa using this
    refine ⟨fun h => absurd (List.elem_iff.mp h) hnmem, ?_, ?_⟩
    · constructor
      · rintro ⟨l, hl⟩
        rw [hres] at hl
        by_cases h1 : ms.length = 1
        · simp [h1] at hl
        · by_cases h2 : ms.length > 1
          · exact ⟨hc', by omega⟩
          · simp [h1, h2] at hl
      · rintro ⟨-, h2⟩
        have h1 : ¬ ms.length = 1 := by omega
        have h2' : ms.length > 1 := by omega
        exact ⟨ms, by rw [hres]; simp [h1, h2']⟩
    · constructor
      · rintro ⟨s, hs⟩
        rw [hres] at hs
        by_cases h1 : ms.length = 1
        · simp [h1] at hs
        · by_cases h2 : ms.length > 1
          · simp [h1, h2] at hs
          · have h0 : ms.length = 0 := by omega
            exact hnil.mpr (List.length_eq_zero.mp h0)
      · intro h
        have h0 : ms = [] := hnil.mp h
        have h1 : ¬ ms.length = 1 := by simp [h0]
        have h2 : ¬ ms.length > 1 := by simp [h0]
        exact ⟨"Session \"" ++ partial_id ++ "\" not found.", by rw [hres]; simp [h1, h2]⟩

/-- C9 witness: an id that is both a key and a proper prefix of another
key resolves exactly, with no ambiguity. -/
theorem resolve_session_id_spec_witness :
    resolve_session_id "ab" ["ab", "abc"] = (some "ab", .ok) :=
  (resolve_session_id_spec "ab" ["ab", "abc"]).1 (by decide)

/-! ## Claims C8 and C10 — supporting lemmas on the extraction loop -/

theorem processToolUse_user_messages (s : ExtractState) (ts : Option String)
    (nm : String) (inp : ToolInput) :
    (processToolUse s ts nm inp).user_messages = s.user_messages := by
  unfold processToolUse
  by_cases h1 : nm = "TodoWrite"
  · simp [h1]
  · by_cases h2 : nm = "TaskCreate"
    · simp [h1, h2]
    · by_cases h3 : nm = "TaskUpdate"
      · rw [if_neg h1, if_neg h2, if_pos h3]
        cases hl : s.todo_snapshots.getLast? with
        | none => rfl
        | some snap =>
          cases hs : inp.status with
          | none => rfl
          | some ns => split <;> simp [apply_ite ExtractState.user_messages]
      · rw [if_neg h1, if_neg h2, if_neg h3]

theorem foldl_toolUse_user_messages (ts : Option String) (l : List ContentItem)
    (s : ExtractState) :
    (l.foldl
      (fun s it =>
        match it with
        | ContentItem.toolUse nm inp => processToolUse s ts nm inp
        | _ => s)
      s).user_messages = s.user_messages := by
  induction l generalizing s with
  | nil => rfl
  | cons it t ih =>
    cases it <;> simp [List.foldl_cons, ih, processToolUse_user_messages]

theorem entryStepSession_user_messages (st : ExtractState) (e : Entry) :
    (entryStepSession st e).user_messages = st.user_messages := by
  unfold entryStepSession
  split <;> rfl

theorem entryStepIndex_user_messages (st : ExtractState) (e : Entry) :
    (entryStepIndex st e).user_messages = st.user_messages := by
  unfold entryStepIndex
  split <;> rfl

theorem entryStepUserTodos_user_messages (st : ExtractState) (e : Entry) :
    (entryStepUserTodos st e).user_messages = st.user_messages := by
  unfold entryStepUserTodos
  split <;> rfl

theorem entryStepTools_user_messages (st : ExtractState) (e : Entry) :
    (entryStepTools st e).user_messages = st.user_messages := by
  unfold entryStepTools
  cases hm : e.message with
  | none => rfl
  | some m =>
    by_cases ht : e.type = "assistant"
    · simp [ht, foldl_toolUse_user_messages]
    · simp [ht]

theorem entryStepUserText_user_messages (st : ExtractState) (e : Entry) :
    (entryStepUserText st e).user_messages =
      st.user_messages ++ (userTextOf e).toList := by
  unfold entryStepUserText userTextOf
  cases hm : e.message with
  | none => simp
  | some m =>
    by_cases ht : e.type = "user"
    · by_cases hc : extract_text_content m.content ≠ ""
      · by_cases h4 : optTruthy st.timestamp <;> simp [ht, hc, h4]
      · simp [ht, hc]
    · simp [ht]

theorem processEntry_user_messages (st : ExtractState) (e : Entry) :
    (processEntry st e).user_messages = st.user_messages ++ (userTextOf e).toList := by
  unfold processEntry
  rw [entryStepUserTodos_user_messages, entryStepTools_user_messages,
    entryStepIndex_user_messages, entryStepUserText_user_messages,
    entryStepSession_user_messages]

theorem extractLoop_user_messages_from (entries : List Entry) :
    ∀ st : ExtractState,
      (entries.foldl processEntry st).user_messages =
        st.user_messages ++ userMessagesOf entries := by
  induction entries with
  | nil => intro st; simp [userMessagesOf]
  | cons e t ih =>
    intro st
    simp only [List.foldl_cons, ih, processEntry_user_messages, userMessagesOf,
      List.filterMap_cons]
    cases h : userTextOf e <;> simp [h]

/-- The loop's collected user messages in closed form: every user entry
with truthy message and text counts, noise or not. -/
theorem extractLoop_user_messages (entries : List Entry) :
    (extractLoop entries).user_messages = userMessagesOf entries := by
  simpa using extractLoop_user_messages_from entries {}

theorem fullTextParts_noise (e : Entry) (h : isNoiseUserEntry e = true) :
    fullTextParts e = [] := by
  unfold isNoiseUserEntry at h
  cases hm : e.message with
  | none => rw [hm] at h; simp at h
  | some m =>
    rw [hm] at h
    simp only [Bool.and_eq_true, beq_iff_eq] at h
    unfold fullTextParts
    rw [hm]
    simp [h.1, h.2]

/-! ## Claim C5 — cache staleness and re-extraction -/

theorem is_entry_stale_iff (e : CacheEntryR) :
    is_entry_stale e = true ↔
      e.term_counts_present = false ∨ e.episodes_present = false := by
  cases h1 : e.term_counts_present <;> cases h2 : e.episodes_present <;>
    simp [is_entry_stale, h1, h2]

/-- C5: during a scan a file is re-extracted iff its session id is absent,
the cached mtime is strictly older, or the `term_counts`/`episodes` key is
missing; a file that does not need reparsing leaves the cache and the
modified flag untouched, and one that does gets a wholesale replacement
built from the fresh extraction (other keys untouched). -/
theorem cache_reparse_spec (cache : CacheMap) (modified : Bool) (f : LogFile) :
    (needs_reparse cache (sessionIdOfPath f.path) f.mtime = true ↔
      cache (sessionIdOfPath f.path) = none ∨
        ∃ e, cache (sessionIdOfPath f.path) = some e ∧
          (e.mtime.getD 0 < f.mtime ∨ e.term_counts_present = false ∨
            e.episodes_present = false)) ∧
    (needs_reparse cache (sessionIdOfPath f.path) f.mtime = false →
      processFile (cache, modified) f = (cache, modified)) ∧
    (needs_reparse cache (sessionIdOfPath f.path) f.mtime = true →
      ∀ d, extract_conversation_data (path_basename (path_dirname f.path)) f.entries
          = some d →
        (processFile (cache, modified) f).1 (sessionIdOfPath f.path) =
          some { mtime := some f.mtime, term_counts_present := true,
                 episodes_present := true, record := d, file_path := f.path } ∧
        (∀ s, s ≠ sessionIdOfPath f.path →
          (processFile (cache, modified) f).1 s = cache s) ∧
        (processFile (cache, modified) f).2 = true) := by
  refine ⟨?_, ?_, ?_⟩
  · cases hc : cache (sessionIdOfPath f.path) with
    | none => simp [needs_reparse, hc]
    | some e =>
      simp only [needs_reparse, hc]
      constructor
      · intro h
        by_cases h1 : e.mtime.getD 0 < f.mtime
        · exact Or.inr ⟨e, rfl, Or.inl h1⟩
        · rw [if_neg h1] at h
          rcases (is_entry_stale_iff e).mp h with h2 | h2
          · exact Or.inr ⟨e, rfl, Or.inr (Or.inl h2)⟩
          · exact Or.inr ⟨e, rfl, Or.inr (Or.inr h2)⟩
      · rintro (h | ⟨e', he', hcond⟩)
        · exact absurd h (by simp)
        · obtain rfl : e = e' := Option.some.inj he'
          by_cases h1 : e.mtime.getD 0 < f.mtime
          · simp [h1]
          · rw [if_neg h1]
            rcases hcond with h2 | h2 | h2
            · exact absurd h2 h1
            · exact (is_entry_stale_iff e).mpr (Or.inl h2)
            · exact (is_entry_stale_iff e).mpr (Or.inr h2)
  · intro h
    simp [processFile, h]
  · intro h d hd
    refine ⟨?_, ?_, ?_⟩
    · simp [processFile, h, hd]
    · intro s hs
      simp [processFile, h, hd, hs]
    · simp [processFile, h, hd]

/-- C5 witness: an unseen file gets extracted and marks the cache
modified. -/
theorem cache_reparse_spec_witness :
    (processFile ((fun _ => none : CacheMap), false) ⟨"p/s.jsonl", 5, []⟩).1 "s" =
      some { mtime := some 5, term_counts_present := true, episodes_present := true,
             record := { session_id := "unknown", project := "p",
                         first_message := "No message", user_message_arc := [],
                         user_message_count := 0, timestamp := "",
                         todo_snapshots := [], final_todos := {}, work_items := [],
                         episodes := [], message_count := 0, files_touched := [],
                         commands_run := [], urls_fetched := [], term_counts := [] },
             file_path := "p/s.jsonl" } := by
  have h := ((cache_reparse_spec (fun _ => none) false ⟨"p/s.jsonl", 5, []⟩).2.2
    (by rfl)
    { session_id := "unknown", project := "p", first_message := "No message",
      user_message_arc := [], user_message_count := 0, timestamp := "",
      todo_snapshots := [], final_todos := {}, work_items := [], episodes := [],
      message_count := 0, files_touched := [], commands_run := [],
      urls_fetched := [], term_counts := [] }
    (by rfl)).1
  exact h

/-! ## Claim C1 — `TaskUpdate` normalization -/

/-- C1 (amended): with no prior snapshot, or an empty `taskId`, or a
missing/empty `status`, a `TaskUpdate` is a no-op; otherwise a new
snapshot is always appended — its todos are the previous snapshot's todos
with only the matching todo's status replaced, so with an unknown
`taskId` the appended todos equal the previous snapshot's todos
unchanged. -/
theorem taskUpdate_spec (st : ExtractState) (ts : Option String) (inp : ToolInput) :
    ((st.todo_snapshots = [] ∨ inp.taskId = "" ∨ inp.status = none ∨
        inp.status = some "") →
      processToolUse st ts "TaskUpdate" inp = st) ∧
    (∀ snap new_status, st.todo_snapshots.getLast? = some snap →
      inp.status = some new_status → inp.taskId ≠ "" → new_status ≠ "" →
      (processToolUse st ts "TaskUpdate" inp).todo_snapshots =
        st.todo_snapshots ++
          [⟨st.message_index, ts,
            snap.todos.map fun t =>
              if t.id == some inp.taskId then { t with status := some new_status }
              else t⟩] ∧
      ((∀ t ∈ snap.todos, t.id ≠ some inp.taskId) →
        (snap.todos.map fun t =>
          if t.id == some inp.taskId then { t with status := some new_status }
          else t) = snap.todos)) := by
  constructor
  · rintro (h | h | h | h)
    · simp [processToolUse, h]
    · cases hl : st.todo_snapshots.getLast? <;> cases hs : inp.status <;>
        simp [processToolUse, hl, hs, h]
    · cases hl : st.todo_snapshots.getLast? <;>
        simp [processToolUse, hl, h]
    · cases hl : st.todo_snapshots.getLast? <;>
        simp [processToolUse, hl, h]
  · intro snap new_status hl hs ht hn
    constructor
    · simp [processToolUse, hl, hs, ht, hn]
    · intro hnone
      have : ∀ l : List TaskDict, (∀ t ∈ l, t.id ≠ some inp.taskId) →
          (l.map fun t =>
            if t.id == some inp.taskId then { t with status := some new_status }
            else t) = l := by
        intro l
        induction l with
        | nil => intro _; rfl
        | cons a t ih =>
          intro hall
          have hbeq : (a.id == some inp.taskId) = false := by
            simpa using hall a (by simp)
          have ht' := ih fun x hx => hall x (by simp [hx])
          have hhead : (if (a.id == some inp.taskId) = true then
              { a with status := some new_status } else a) = a := by
            rw [hbeq]
            simp
          simp only [List.map_cons, hhead, ht']
      exact this snap.todos hnone

/-- C1 witness: a `TaskUpdate` with no prior snapshot is a no-op. -/
theorem taskUpdate_spec_witness :
    processToolUse {} none "TaskUpdate" { taskId := "1", status := some "completed" }
      = {} :=
  (taskUpdate_spec {} none { taskId := "1", status := some "completed" }).1
    (Or.inl rfl)

/-- C1 counterexample: a `TaskUpdate` whose `taskId` matches no todo id in
the latest snapshot is not a no-op — a second snapshot is appended (with
the same todos, unchanged). -/
theorem taskUpdate_unknown_id_emits_snapshot :
    (extractLoop
      [{ type := "assistant",
         message := some ⟨.items
           [.toolUse "TaskCreate" { task := { subject := "a", status := some "pending" } },
            .toolUse "TaskUpdate" { taskId := "99", status := some "completed" }]⟩ }]).todo_snapshots
    = [⟨1, none, [{ content := some "a", status := some "pending", id := some "1",
                    subject := "a" }]⟩,
       ⟨1, none, [{ content := some "a", status := some "pending", id := some "1",
                    subject := "a" }]⟩] := by
  rfl

/-! ## Claim C8 — the system-disclaimer noise filter -/

/-- C8 (amended): a user turn whose text begins with the fixed
system-disclaimer preamble is excluded from the indexed full text, but it
*is* collected by the user-message loop, so it still contributes to
`user_message_count`, `first_message` and `user_message_arc`. -/
theorem noise_filter_spec (entries : List Entry) :
    (extract_full_text entries =
      extract_full_text (entries.filter fun e => !isNoiseUserEntry e)) ∧
    (∀ project d, extract_conversation_data project entries = some d →
      d.user_message_count = (userMessagesOf entries).length ∧
      d.first_message = ((userMessagesOf entries).head?).getD "No message" ∧
      d.user_message_arc =
        (match (userMessagesOf entries).head? with
         | none => []
         | some h =>
           if (userMessagesOf entries).length > 1 then
             [h, (userMessagesOf entries).getLastD h]
           else [h])) := by
  constructor
  · unfold extract_full_text
    have hflat : ((entries.filter fun e => !isNoiseUserEntry e).map fullTextParts).flatten
        = (entries.map fullTextParts).flatten := by
      induction entries with
      | nil => rfl
      | cons e t ih =>
        by_cases hn : isNoiseUserEntry e = true
        · simp [hn, fullTextParts_noise e hn, ih]
        · simp only [List.filter_cons, hn]
          simp [ih]

    rw [hflat]
  · intro project d hd
    simp only [extract_conversation_data] at hd
    cases hb : buildFinalTodos (lastSnapshotTodos (extractLoop entries).todo_snapshots) with
    | none => rw [hb] at hd; cases hd
    | some ft =>
      rw [hb] at hd
      obtain rfl := Option.some.inj hd
      refine ⟨?_, ?_, ?_⟩ <;> simp [extractLoop_user_messages]

/-- C8 witness. -/
theorem noise_filter_spec_witness :
    ({ session_id := "unknown", project := "p",
       first_message := "Caveat: The messages below were generated locally",
       user_message_arc := ["Caveat: The messages below were generated locally"],
       user_message_count := 1, timestamp := "", todo_snapshots := [],
       final_todos := {}, work_items := [], episodes := [], message_count := 1,
       files_touched := [], commands_run := [], urls_fetched := [],
       term_counts := [] } : ConvData).user_message_count =
      (userMessagesOf
        [{ type := "user",
           message := some ⟨.str "Caveat: The messages below were generated locally"⟩ }]).length :=
  ((noise_filter_spec
      [{ type := "user",
         message := some ⟨.str "Caveat: The messages below were generated locally"⟩ }]).2
    "p" _ (by rfl)).1

/-- C8 counterexample: a disclaimer user turn contributes nothing to the
indexed full text, yet it is counted as a user turn and becomes the first
message. -/
theorem noise_user_turn_counted_counterexample :
    extract_full_text
        [{ type := "user",
           message := some ⟨.str "Caveat: The messages below were generated locally"⟩ }] = "" ∧
      (extract_conversation_data "p"
        [{ type := "user",
           message := some ⟨.str "Caveat: The messages below were generated locally"⟩ }]).map
        (fun d => (d.user_message_count, d.first_message))
      = some (1, "Caveat: The messages below were generated locally") :=
  ⟨rfl, rfl⟩

/-! ## Claim C10 — totality of final-todo categorization -/

theorem buildFinalTodos_eq_none_iff (l : List TaskDict) :
    buildFinalTodos l = none ↔
      ∃ t ∈ l, t.content.getD "" ≠ "" ∧ t.status.getD "pending" ≠ "pending" ∧
        t.status.getD "pending" ≠ "in_progress" ∧
        t.status.getD "pending" ≠ "completed" := by
  induction l with
  | nil => simp [buildFinalTodos]
  | cons t ts ih =>
    simp only [buildFinalTodos]
    cases hb : buildFinalTodos ts with
    | none =>
      obtain ⟨x, hx, hP⟩ := ih.mp hb
      constructor
      · intro _
        exact ⟨x, List.mem_cons_of_mem _ hx, hP⟩
      · intro _
        rfl
    | some f =>
      have htail : ¬ ∃ x ∈ ts, x.content.getD "" ≠ "" ∧
          x.status.getD "pending" ≠ "pending" ∧
          x.status.getD "pending" ≠ "in_progress" ∧
          x.status.getD "pending" ≠ "completed" := fun hex => by
        rw [ih.mpr hex] at hb
        cases hb
      constructor
      · intro h
        by_cases hc : t.content.getD "" ≠ ""
        · by_cases h1 : t.status.getD "pending" = "completed"
          · exact absurd h (by simp [hc, h1])
          · by_cases h2 : t.status.getD "pending" = "in_progress"
            · exact absurd h (by simp [hc, h1, h2])
            · by_cases h3 : t.status.getD "pending" = "pending"
              · exact absurd h (by simp [hc, h1, h2, h3])
              · exact ⟨t, List.mem_cons_self t ts, hc, h3, h2, h1⟩
        · exact absurd h (by simp [hc])
      · rintro ⟨x, hx, hP⟩
        rcases List.mem_cons.mp hx with rfl | hx'
        · obtain ⟨hc, hpd, hip, hcp⟩ := hP
          simp [hc, hpd, hip, hcp]
        · exact absurd ⟨x, hx', hP⟩ htail


/-- C10: when every todo of the latest snapshot has a status in
{pending, in_progress, completed} or no status field (defaulting to
pending), extraction returns a record; it raises (returns `none`) exactly
when some todo there has truthy content and a status outside that domain
— the `final_todos[status]` lookup is the sole failure point. -/
theorem final_todos_domain_spec (project : String) (entries : List Entry) :
    ((∀ t ∈ lastSnapshotTodos (extractLoop entries).todo_snapshots,
        t.status.getD "pending" = "pending" ∨ t.status.getD "pending" = "in_progress" ∨
          t.status.getD "pending" = "completed") →
      ∃ d, extract_conversation_data project entries = some d) ∧
    (extract_conversation_data project entries = none ↔
      ∃ t ∈ lastSnapshotTodos (extractLoop entries).todo_snapshots,
        t.content.getD "" ≠ "" ∧ t.status.getD "pending" ≠ "pending" ∧
          t.status.getD "pending" ≠ "in_progress" ∧
          t.status.getD "pending" ≠ "completed") := by
  have hmain : extract_conversation_data project entries = none ↔
      buildFinalTodos (lastSnapshotTodos (extractLoop entries).todo_snapshots) = none := by
    unfold extract_conversation_data
    cases hb : buildFinalTodos (lastSnapshotTodos (extractLoop entries).todo_snapshots) <;>
      simp [hb]
  constructor
  · intro hgood
    cases hd : extract_conversation_data project entries with
    | some d => exact ⟨d, rfl⟩
    | none =>
      obtain ⟨t, ht, hc, h1, h2, h3⟩ :=
        (buildFinalTodos_eq_none_iff _).mp (hmain.mp hd)
      rcases hgood t ht with h | h | h
      exacts [absurd h h1, absurd h h2, absurd h h3]
  · rw [hmain]
    exact buildFinalTodos_eq_none_iff _

/-- C10 witness: a log with no snapshots trivially satisfies the status
precondition and extracts successfully. -/
theorem final_todos_domain_spec_witness :
    ∃ d, extract_conversation_data "p" [] = some d :=
  (final_todos_domain_spec "p" []).1
    (by intro t ht; simp [extractLoop, lastSnapshotTodos] at ht)

/-! ## Claim C3 — mutual exclusivity of `final_todos` -/

/-- The three category lists together are a permutation of the latest
snapshot's truthy contents: each such content is filed under exactly one
status. -/
theorem buildFinalTodos_perm (l : List TaskDict) :
    ∀ f, buildFinalTodos l = some f →
      (f.completed ++ f.in_progress ++ f.pending).Perm (truthyContents l) := by
  induction l with
  | nil =>
    intro f h
    obtain rfl := Option.some.inj h
    simp [truthyContents]
  | cons t ts ih =>
    intro f h
    simp only [buildFinalTodos] at h
    cases hb : buildFinalTodos ts with
    | none => rw [hb] at h; cases h
    | some g =>
      rw [hb] at h
      have hg := ih g hb
      by_cases hc : t.content.getD "" ≠ ""
      · have htc : truthyContents (t :: ts) =
            t.content.getD "" :: truthyContents ts := by
          simp [truthyContents, hc]
        by_cases h1 : t.status.getD "pending" = "completed"
        · simp only [hc, h1, if_pos, if_true, ite_true, if_neg, reduceIte] at h
          simp [hc, h1] at h
          obtain rfl := h.symm
          rw [htc]
          have hsh : ((t.content.getD "" :: g.completed) ++ g.in_progress ++ g.pending)
              = t.content.getD "" :: (g.completed ++ g.in_progress ++ g.pending) := by
            simp
          rw [hsh]
          exact hg.cons _
        · by_cases h2 : t.status.getD "pending" = "in_progress"
          · simp [hc, h1, h2] at h
            obtain rfl := h.symm
            rw [htc]
            have hperm1 : (g.completed ++ (t.content.getD "" :: g.in_progress) ++ g.pending).Perm
                ((t.content.getD "" :: (g.completed ++ g.in_progress)) ++ g.pending) := by
              have hmid : (g.completed ++ t.content.getD "" :: g.in_progress).Perm
                  (t.content.getD "" :: (g.completed ++ g.in_progress)) :=
                List.perm_middle
              exact (hmid.append_right g.pending)
            refine hperm1.trans ?_
            have hsh : ((t.content.getD "" :: (g.completed ++ g.in_progress)) ++ g.pending)
                = t.content.getD "" :: (g.completed ++ g.in_progress ++ g.pending) := by
              simp
            rw [hsh]
            exact hg.cons _
          · by_cases h3 : t.status.getD "pending" = "pending"
            · simp [hc, h1, h2, h3] at h
              obtain rfl := h.symm
              rw [htc]
              have hperm1 : (g.completed ++ g.in_progress ++ (t.content.getD "" :: g.pending)).Perm
                  (t.content.getD "" :: (g.completed ++ g.in_progress ++ g.pending)) := by
                have hmid : ((g.completed ++ g.in_progress) ++ t.content.getD "" :: g.pending).Perm
                    (t.content.getD "" :: ((g.completed ++ g.in_progress) ++ g.pending)) :=
                  List.perm_middle
                simpa using hmid
              refine ?_
              have hsh : (g.completed ++ g.in_progress ++ (t.content.getD "" :: g.pending))
                  = g.completed ++ (g.in_progress ++ (t.content.getD "" :: g.pending)) := by
                simp
              refine hperm1.trans ?_
              exact hg.cons _
            · simp [hc, h1, h2, h3] at h
      · have hc' : t.content.getD "" = "" := not_not.mp (by simpa using hc)
        simp [hc'] at h
        obtain rfl := h.symm
        have htc : truthyContents (t :: ts) = truthyContents ts := by
          simp [truthyContents, hc']
        rw [htc]
        exact hg

/-- C3 (amended): when the latest snapshot's truthy todo contents are
pairwise distinct, the three `final_todos` lists are duplicate free,
mutually exclusive, and drawn from the latest snapshot only. -/
theorem final_todos_exclusive_of_nodup (project : String) (entries : List Entry)
    (d : ConvData) (hd : extract_conversation_data project entries = some d)
    (hnd : (truthyContents (lastSnapshotTodos (extractLoop entries).todo_snapshots)).Nodup) :
    finalTodosExclusiveB d.final_todos = true ∧
    d.final_todos.completed ⊆
      truthyContents (lastSnapshotTodos (extractLoop entries).todo_snapshots) ∧
    d.final_todos.in_progress ⊆
      truthyContents (lastSnapshotTodos (extractLoop entries).todo_snapshots) ∧
    d.final_todos.pending ⊆
      truthyContents (lastSnapshotTodos (extractLoop entries).todo_snapshots) := by
  simp only [extract_conversation_data] at hd
  cases hb : buildFinalTodos (lastSnapshotTodos (extractLoop entries).todo_snapshots) with
  | none => rw [hb] at hd; cases hd
  | some ft =>
    rw [hb] at hd
    obtain rfl := Option.some.inj hd
    show finalTodosExclusiveB ft = true ∧ ft.completed ⊆ _ ∧ ft.in_progress ⊆ _ ∧
      ft.pending ⊆ _
    have hperm := buildFinalTodos_perm _ ft hb
    have hndc : (ft.completed ++ ft.in_progress ++ ft.pending).Nodup :=
      hperm.symm.nodup hnd
    have hsub : (ft.completed ++ ft.in_progress ++ ft.pending) ⊆
        truthyContents (lastSnapshotTodos (extractLoop entries).todo_snapshots) :=
      hperm.subset
    obtain ⟨hn12, hn3, hd3⟩ := List.nodup_append.mp hndc
    obtain ⟨hn1, hn2, hd12⟩ := List.nodup_append.mp hn12
    refine ⟨?_, ?_, ?_, ?_⟩
    · simp only [finalTodosExclusiveB, Bool.and_eq_true, decide_eq_true_eq,
        List.all_eq_true]
      refine ⟨⟨⟨⟨hn1, hn2⟩, hn3⟩, ?_⟩, ?_⟩
      · intro x hx
        have hx1 : x ∉ ft.in_progress := fun hm => hd12 hx hm
        have hx2 : x ∉ ft.pending := fun hm =>
          hd3 (List.mem_append_left _ hx) hm
        simp [hx1, hx2]
      · intro x hx
        simpa using fun hm => hd3 (List.mem_append_right _ hx) hm
    · exact fun x hx => hsub (List.mem_append_left _ (List.mem_append_left _ hx))
    · exact fun x hx => hsub (List.mem_append_left _ (List.mem_append_right _ hx))
    · exact fun x hx => hsub (List.mem_append_right _ hx)

/-- C3 witness. -/
theorem final_todos_exclusive_of_nodup_witness :
    finalTodosExclusiveB
      ({ completed := ["x"], in_progress := [], pending := [] } : FinalTodos) = true :=
  (final_todos_exclusive_of_nodup "p"
    [{ type := "assistant",
       message := some ⟨.items [.toolUse "TodoWrite"
         { todos := [{ content := some "x", status := some "completed" }] }]⟩ }]
    { session_id := "unknown", project := "p", first_message := "No message",
      user_message_arc := [], user_message_count := 0, timestamp := "",
      todo_snapshots := [⟨1, none, [{ content := some "x", status := some "completed" }]⟩],
      final_todos := { completed := ["x"], in_progress := [], pending := [] },
      work_items := ["x"], episodes := [⟨"x", 0, 1, 1, 1⟩], message_count := 1,
      files_touched := [], commands_run := [], urls_fetched := [], term_counts := [] }
    (by rfl) (by decide)).1

/-- C3 counterexample: a latest snapshot holding the same content twice
with different statuses puts the string in two categories at once. -/
theorem final_todos_duplicate_content_counterexample :
    (extract_conversation_data "p"
      [{ type := "assistant",
         message := some ⟨.items [.toolUse "TodoWrite"
           { todos := [{ content := some "x", status := some "completed" },
                       { content := some "x", status := some "pending" }] }]⟩ }]).map
      (fun d => (d.final_todos, finalTodosExclusiveB d.final_todos))
    = some (⟨["x"], [], ["x"]⟩, false) := by
  rfl

/-! ## Claim C6 — the timestamp-range filter -/

/-- A record failing the timestamp filter is dropped before any scoring:
`scoreRecord` returns `none` for it whatever the query, stems or notes. -/
theorem scoreRecord_none_of_timeFiltered
    (notes : String → List String) (parseTs : String → Option Int) (now : Int)
    (query_terms query_stems : List String) (projF : Option String)
    (a b : Option Int) (sid : String) (e : CacheEntryR)
    (h : timeKeepB a b (parse_timestamp parseTs e.record.timestamp) = false) :
    scoreRecord notes parseTs now query_terms query_stems projF a b sid e = none := by
  unfold scoreRecord
  cases hp : projKeepB projF e.record.project <;> simp [hp, h]

/-- C6 (amended): the timestamp filter keeps a record exactly when
`after <= ts` and `ts <= before` for whichever bounds are given —
inclusive at *both* ends — and it runs before scoring: a record outside
the range yields no result for any query, and any produced result passed
the filter. -/
theorem search_time_filter_spec (after_dt before_dt conv_dt : Option Int) :
    (timeKeepB after_dt before_dt conv_dt = true ↔
      ((∀ a, after_dt = some a → ∀ c, conv_dt = some c → a ≤ c) ∧
       (∀ b, before_dt = some b → ∀ c, conv_dt = some c → c ≤ b))) ∧
    (∀ (notes : String → List String) (parseTs : String → Option Int) (now : Int)
        (query_terms query_stems : List String) (projF : Option String)
        (sid : String) (e : CacheEntryR),
      timeKeepB after_dt before_dt (parse_timestamp parseTs e.record.timestamp)
          = false →
        scoreRecord notes parseTs now query_terms query_stems projF
          after_dt before_dt sid e = none) ∧
    (∀ (notes : String → List String) (parseTs : String → Option Int) (now : Int)
        (query_terms query_stems : List String) (projF : Option String)
        (sid : String) (e : CacheEntryR) (r : SearchResult),
      scoreRecord notes parseTs now query_terms query_stems projF
          after_dt before_dt sid e = some r →
        timeKeepB after_dt before_dt (parse_timestamp parseTs e.record.timestamp)
          = true) := by
  refine ⟨?_, ?_, ?_⟩
  · unfold timeKeepB
    cases after_dt <;> cases before_dt <;> cases conv_dt <;> simp
  · intro notes parseTs now qt qs projF sid e h
    exact scoreRecord_none_of_timeFiltered notes parseTs now qt qs projF _ _ sid e h
  · intro notes parseTs now qt qs projF sid e r hr
    cases htk : timeKeepB after_dt before_dt
        (parse_timestamp parseTs e.record.timestamp) with
    | true => rfl
    | false =>
      rw [scoreRecord_none_of_timeFiltered notes parseTs now qt qs projF _ _ sid e htk]
        at hr
      cases hr

/-- C6 witness. -/
theorem search_time_filter_spec_witness :
    scoreRecord noNotes parseN 0 [] [] none (some 3) none "s"
      (sampleCacheEntry [] "1" 0) = none :=
  (search_time_filter_spec (some 3) none none).2.1 noNotes parseN 0 [] [] none "s"
    (sampleCacheEntry [] "1" 0) (by rfl)

/-- C6 counterexample: a record whose timestamp equals the `before` bound
is kept (the upper bound is inclusive in the code), while the claimed
inclusive-exclusive predicate would drop it. -/
theorem search_before_bound_inclusive_counterexample :
    (search noNotes parseN 0 "bug" 5 0 none none (some "5") false
        [("s", sampleCacheEntry ["bug"] "5" 1)]).totalMatches = 1 ∧
    specTimeKeepB none (parse_timestamp parseN "5") (parse_timestamp parseN "5")
      = false :=
  ⟨rfl, rfl⟩

/-! ## Claim C7 — result ordering and pagination -/

theorem descScoreTs_eq_true (a b : SearchResult) :
    descScoreTs a b = true ↔
      b.score < a.score ∨ (b.score = a.score ∧ b.ts ≤ a.ts) := by
  simp [descScoreTs]

theorem descScoreTs_total (a b : SearchResult) :
    descScoreTs a b = true ∨ descScoreTs b a = true := by
  rw [descScoreTs_eq_true, descScoreTs_eq_true]
  omega

theorem descScoreTs_trans (a b c : SearchResult)
    (h1 : descScoreTs a b = true) (h2 : descScoreTs b c = true) :
    descScoreTs a c = true := by
  rw [descScoreTs_eq_true] at h1 h2 ⊢
  omega

theorem descTs_eq_true (a b : SearchResult) :
    descTs a b = true ↔ b.ts ≤ a.ts := by
  simp [descTs]

theorem descTs_total (a b : SearchResult) :
    descTs a b = true ∨ descTs b a = true := by
  rw [descTs_eq_true, descTs_eq_true]
  omega

theorem descTs_trans (a b c : SearchResult)
    (h1 : descTs a b = true) (h2 : descTs b c = true) : descTs a c = true := by
  rw [descTs_eq_true] at h1 h2 ⊢
  omega

/-- C7 (amended): by default results are ordered by (score descending,
stored file mtime descending); with the recency flag by mtime descending
only; pagination slices `[skip, skip+limit)` of the sorted list and the
reported total is the count before slicing. -/
theorem search_order_spec (notes : String → List String)
    (parseTs : String → Option Int) (now : Int) (query : String)
    (projectF : Option String) (after before : Option String)
    (limit skip : Nat) (cache : List (String × CacheEntryR)) :
    pairwiseBool descScoreTs
        (searchSorted notes parseTs now query projectF after before false cache)
      = true ∧
    pairwiseBool descTs
        (searchSorted notes parseTs now query projectF after before true cache)
      = true ∧
    (∀ recent,
      (search notes parseTs now query limit skip projectF after before recent
          cache).results =
        (((searchSorted notes parseTs now query projectF after before recent
            cache).drop skip).take limit).map SearchResult.toHit ∧
      (search notes parseTs now query limit skip projectF after before recent
          cache).totalMatches =
        (searchSorted notes parseTs now query projectF after before recent
          cache).length) := by
  refine ⟨?_, ?_, fun recent => ⟨rfl, rfl⟩⟩
  · exact pairwiseBool_insertionSortB descScoreTs descScoreTs_total descScoreTs_trans _
  · exact pairwiseBool_insertionSortB descTs descTs_total descTs_trans _

/-- C7 counterexample: with equal scores the code orders by stored file
mtime, not by the record's conversation timestamp — session "a" (mtime 20,
timestamp 200) comes before session "b" (mtime 10, timestamp 300), so the
claimed (score desc, record timestamp desc) order is violated. -/
theorem search_sort_uses_mtime_counterexample :
    ((search noNotes parseN 0 "bug" 5 0 none none none false
        [("a", sampleCacheEntry ["bug"] "200" 20),
         ("b", sampleCacheEntry ["bug"] "300" 10)]).results.map
      (fun h => (h.sessionId, h.score)) = [("a", 5), ("b", 5)]) ∧
    hitsOrderedByConvTsB parseN
        [("a", sampleCacheEntry ["bug"] "200" 20),
         ("b", sampleCacheEntry ["bug"] "300" 10)]
        (search noNotes parseN 0 "bug" 5 0 none none none false
          [("a", sampleCacheEntry ["bug"] "200" 20),
           ("b", sampleCacheEntry ["bug"] "300" 10)]).results
      = false :=
  ⟨rfl, rfl⟩

/-! ## Claim C2 — episode invariants

First the bookkeeping that the extraction loop only ever appends
snapshots at the current message index (`Extends`/`StInv`), then the
chained-boundary analysis of `calculate_episodes`. -/

theorem pairwiseBool_append_iff (r : α → α → Bool) (l1 l2 : List α) :
    pairwiseBool r (l1 ++ l2) = true ↔
      pairwiseBool r l1 = true ∧ pairwiseBool r l2 = true ∧
        ∀ a ∈ l1, ∀ b ∈ l2, r a b = true := by
  induction l1 with
  | nil => simp [pairwiseBool]
  | cons a t ih =>
    constructor
    · intro h
      simp only [List.cons_append, pairwiseBool, Bool.and_eq_true,
        List.all_eq_true] at h
      obtain ⟨hall, hrest⟩ := h
      obtain ⟨hp1, hp2, hcross⟩ := ih.mp hrest
      refine ⟨?_, hp2, ?_⟩
      · simp only [pairwiseBool, Bool.and_eq_true, List.all_eq_true]
        exact ⟨fun x hx => hall x (List.mem_append_left _ hx), hp1⟩
      · intro x hx y hy
        rcases List.mem_cons.mp hx with rfl | hx'
        · exact hall y (List.mem_append_right _ hy)
        · exact hcross x hx' y hy
    · rintro ⟨hp1, hp2, hcross⟩
      simp only [pairwiseBool, Bool.and_eq_true, List.all_eq_true] at hp1
      obtain ⟨ha, hp1'⟩ := hp1
      simp only [List.cons_append, pairwiseBool, Bool.and_eq_true,
        List.all_eq_true]
      refine ⟨?_, ih.mpr ⟨hp1', hp2,
        fun x hx y hy => hcross x (List.mem_cons_of_mem _ hx) y hy⟩⟩
      intro x hx
      rcases List.mem_append.mp hx with h | h
      · exact ha x h
      · exact hcross a (List.mem_cons_self _ _) x h

theorem extends_refl (st : ExtractState) : Extends st st :=
  ⟨le_refl _, [], by simp, rfl, by simp⟩

theorem extends_of_eq (st st' : ExtractState)
    (hs : st'.todo_snapshots = st.todo_snapshots)
    (hi : st.message_index ≤ st'.message_index) : Extends st st' :=
  ⟨hi, [], by simp [hs], rfl, by simp⟩

theorem extends_trans (s1 s2 s3 : ExtractState)
    (h12 : Extends s1 s2) (h23 : Extends s2 s3) : Extends s1 s3 := by
  obtain ⟨hi12, t1, hs1, hm1, hb1⟩ := h12
  obtain ⟨hi23, t2, hs2, hm2, hb2⟩ := h23
  refine ⟨le_trans hi12 hi23, t1 ++ t2, ?_, ?_, ?_⟩
  · rw [hs2, hs1, List.append_assoc]
  · unfold snapsMonoB at hm1 hm2 ⊢
    rw [pairwiseBool_append_iff]
    refine ⟨hm1, hm2, fun a ha b hb => ?_⟩
    have h1 := (hb1 a ha).2
    have h2 := (hb2 b hb).1
    simp only [decide_eq_true_eq]
    omega
  · intro sn hsn
    rcases List.mem_append.mp hsn with h | h
    · exact ⟨(hb1 sn h).1, le_trans (hb1 sn h).2 hi23⟩
    · exact ⟨le_trans hi12 (hb2 sn h).1, (hb2 sn h).2⟩

theorem stInv_of_extends (st st' : ExtractState)
    (h : StInv st) (hx : Extends st st') : StInv st' := by
  obtain ⟨hmono, hbound⟩ := h
  obtain ⟨hi, tail, hs, hm, hb⟩ := hx
  constructor
  · unfold snapsMonoB at hmono hm ⊢
    rw [hs, pairwiseBool_append_iff]
    refine ⟨hmono, hm, fun a ha b hb' => ?_⟩
    have h1 := hbound a ha
    have h2 := (hb b hb').1
    simp only [decide_eq_true_eq]
    omega
  · intro sn hsn
    rw [hs] at hsn
    rcases List.mem_append.mp hsn with h | h
    · exact le_trans (hbound sn h) hi
    · exact (hb sn h).2

theorem extends_append_current (st : ExtractState) (ts : Option String)
    (todos : List TaskDict) :
    Extends st { st with todo_snapshots := st.todo_snapshots ++
      [⟨st.message_index, ts, todos⟩] } := by
  refine ⟨le_refl _, [⟨st.message_index, ts, todos⟩], rfl, by simp [snapsMonoB, pairwiseBool], ?_⟩
  intro sn hsn
  simp only [List.mem_singleton] at hsn
  subst hsn
  exact ⟨le_refl _, le_refl _⟩

theorem processToolUse_extends (st : ExtractState) (ts : Option String)
    (nm : String) (inp : ToolInput) :
    Extends st (processToolUse st ts nm inp) := by
  unfold processToolUse
  by_cases h1 : nm = "TodoWrite"
  · rw [if_pos h1]
    exact extends_append_current st ts _
  · rw [if_neg h1]
    by_cases h2 : nm = "TaskCreate"
    · rw [if_pos h2]
      exact extends_append_current st ts _
    · rw [if_neg h2]
      by_cases h3 : nm = "TaskUpdate"
      · rw [if_pos h3]
        cases hl : st.todo_snapshots.getLast? with
        | none => exact extends_refl st
        | some snap =>
          cases hs : inp.status with
          | none => exact extends_refl st
          | some ns =>
            by_cases hc : (decide (inp.taskId ≠ "") && decide (ns ≠ "")) = true
            · simp only [hc, if_true]
              exact extends_append_current st ts _
            · simp only [hc, if_false, Bool.false_eq_true]
              exact extends_refl st
      · rw [if_neg h3]
        exact extends_refl st

theorem foldl_toolUse_extends (ts : Option String) (l : List ContentItem)
    (st : ExtractState) :
    Extends st
      (l.foldl
        (fun s it =>
          match it with
          | ContentItem.toolUse nm inp => processToolUse s ts nm inp
          | _ => s)
        st) := by
  induction l generalizing st with
  | nil => exact extends_refl st
  | cons it t ih =>
    cases it with
    | toolUse nm inp =>
      exact extends_trans _ _ _ (processToolUse_extends st ts nm inp) (ih _)
    | str s => exact ih st
    | textItem s => exact ih st
    | other => exact ih st

theorem entryStepSession_extends (st : ExtractState) (e : Entry) :
    Extends st (entryStepSession st e) := by
  unfold entryStepSession
  split
  · exact extends_of_eq _ _ rfl (le_refl _)
  · exact extends_refl st

theorem entryStepUserText_extends (st : ExtractState) (e : Entry) :
    Extends st (entryStepUserText st e) := by
  have h : (entryStepUserText st e).todo_snapshots = st.todo_snapshots ∧
      (entryStepUserText st e).message_index = st.message_index := by
    unfold entryStepUserText
    cases hm : e.message with
    | none => exact ⟨rfl, rfl⟩
    | some m =>
      by_cases ht : e.type = "user"
      · by_cases hc : extract_text_content m.content ≠ ""
        · by_cases h4 : optTruthy st.timestamp <;> simp [ht, hc, h4]
        · simp [ht, hc]
      · simp [ht]
  exact extends_of_eq _ _ h.1 (le_of_eq h.2.symm)

theorem entryStepIndex_extends (st : ExtractState) (e : Entry) :
    Extends st (entryStepIndex st e) := by
  unfold entryStepIndex
  split
  · exact extends_of_eq _ _ rfl (Nat.le_succ _)
  · exact extends_refl st

theorem entryStepTools_extends (st : ExtractState) (e : Entry) :
    Extends st (entryStepTools st e) := by
  unfold entryStepTools
  cases hm : e.message with
  | none => exact extends_refl st
  | some m =>
    by_cases ht : e.type = "assistant"
    · simp only [ht, if_true, ite_true]
      exact foldl_toolUse_extends e.timestamp _ st
    · simp only [ht, if_false, ite_false]
      exact extends_refl st

theorem entryStepUserTodos_extends (st : ExtractState) (e : Entry) :
    Extends st (entryStepUserTodos st e) := by
  unfold entryStepUserTodos
  split
  · exact extends_append_current st e.timestamp _
  · exact extends_refl st

theorem processEntry_extends (st : ExtractState) (e : Entry) :
    Extends st (processEntry st e) := by
  unfold processEntry
  exact extends_trans _ _ _ (entryStepSession_extends st e)
    (extends_trans _ _ _ (entryStepUserText_extends _ e)
      (extends_trans _ _ _ (entryStepIndex_extends _ e)
        (extends_trans _ _ _ (entryStepTools_extends _ e)
          (entryStepUserTodos_extends _ e))))

/-- The extraction loop always yields snapshots in non-decreasing
message-index order. -/
theorem extractLoop_snapsMono (entries : List Entry) :
    snapsMonoB (extractLoop entries).todo_snapshots = true := by
  have hinv : ∀ st : ExtractState, StInv st → StInv (entries.foldl processEntry st) := by
    induction entries with
    | nil => intro st h; exact h
    | cons e t ih =>
      intro st h
      exact ih _ (stInv_of_extends _ _ h (processEntry_extends st e))
  exact (hinv {} ⟨rfl, by simp⟩).1

theorem chained_append (l1 : List Episode) :
    ∀ p q r (l2 : List Episode), Chained p l1 q → Chained q l2 r →
      Chained p (l1 ++ l2) r := by
  induction l1 with
  | nil =>
    intro p q r l2 h1 h2
    have hpq : p = q := h1
    subst hpq
    exact h2
  | cons e t ih =>
    intro p q r l2 h1 h2
    obtain ⟨hf, hle, hc⟩ := h1
    exact ⟨hf, hle, ih _ _ _ _ hc h2⟩

theorem chained_bounds (l : List Episode) :
    ∀ p q, Chained p l q →
      p ≤ q ∧ ∀ e ∈ l, p ≤ e.range_fst ∧ e.range_fst ≤ e.range_snd ∧
        e.range_snd ≤ q := by
  induction l with
  | nil =>
    intro p q h
    have hpq : p = q := h
    subst hpq
    exact ⟨le_refl _, by simp⟩
  | cons e t ih =>
    intro p q h
    obtain ⟨hf, hle, hc⟩ := h
    obtain ⟨hpq, hall⟩ := ih _ _ hc
    refine ⟨le_trans hle hpq, ?_⟩
    intro x hx
    rcases List.mem_cons.mp hx with rfl | hx'
    · exact ⟨le_of_eq hf.symm, by rw [hf]; exact hle, hpq⟩
    · obtain ⟨h1, h2, h3⟩ := hall x hx'
      exact ⟨le_trans hle h1, h2, h3⟩

theorem chained_pairwise (l : List Episode) :
    ∀ p q, Chained p l q →
      episodeRangesNonDecreasingB l = true ∧
        episodeRangesNonOverlappingB l = true := by
  induction l with
  | nil => intro p q _; exact ⟨rfl, rfl⟩
  | cons e t ih =>
    intro p q h
    obtain ⟨hf, hle, hc⟩ := h
    obtain ⟨hnd, hno⟩ := ih _ _ hc
    obtain ⟨hpq, hall⟩ := chained_bounds t _ _ hc
    constructor
    · unfold episodeRangesNonDecreasingB at hnd ⊢
      simp only [pairwiseBool, Bool.and_eq_true, List.all_eq_true]
      refine ⟨fun x hx => ?_, hnd⟩
      obtain ⟨h1, h2, h3⟩ := hall x hx
      simp only [Bool.and_eq_true, decide_eq_true_eq]
      omega
    · unfold episodeRangesNonOverlappingB at hno ⊢
      simp only [pairwiseBool, Bool.and_eq_true, List.all_eq_true]
      refine ⟨fun x hx => ?_, hno⟩
      obtain ⟨h1, h2, h3⟩ := hall x hx
      simp only [decide_eq_true_eq]
      omega

theorem episodesForTodos_chained (idx : Nat) (todos : List TaskDict) :
    ∀ closed prev, prev ≤ idx →
      Chained prev (episodesForTodos idx todos closed prev).1
          (episodesForTodos idx todos closed prev).2.2 ∧
        (episodesForTodos idx todos closed prev).2.2 ≤ idx ∧
        prev ≤ (episodesForTodos idx todos closed prev).2.2 := by
  induction todos with
  | nil =>
    intro closed prev h
    exact ⟨rfl, h, le_refl _⟩
  | cons t ts ih =>
    intro closed prev h
    simp only [episodesForTodos]
    split
    · obtain ⟨hch, hle, hge⟩ := ih (t.content.getD "" :: closed) idx (le_refl idx)
      exact ⟨⟨rfl, h, hch⟩, hle, le_trans h hge⟩
    · exact ih closed prev h

theorem episodesAux_chained (snaps : List Snapshot) :
    ∀ closed prev, (∀ sn ∈ snaps, prev ≤ sn.message_index) →
      snapsMonoB snaps = true →
      ∃ q, Chained prev (episodesAux snaps closed prev) q := by
  induction snaps with
  | nil =>
    intro closed prev _ _
    exact ⟨prev, rfl⟩
  | cons s rest ih =>
    intro closed prev hall hmono
    simp only [episodesAux]
    have hps : prev ≤ s.message_index := hall s (List.mem_cons_self _ _)
    obtain ⟨hch, hle, hge⟩ :=
      episodesForTodos_chained s.message_index s.todos closed prev hps
    have hmono2 : rest.all (fun b => decide (s.message_index ≤ b.message_index)) = true ∧
        snapsMonoB rest = true := by
      unfold snapsMonoB at hmono ⊢
      simp only [pairwiseBool, Bool.and_eq_true] at hmono
      exact hmono
    have hallrest : ∀ sn ∈ rest,
        (episodesForTodos s.message_index s.todos closed prev).2.2 ≤
          sn.message_index := by
      intro sn hsn
      have hsle : s.message_index ≤ sn.message_index := by
        have h := List.all_eq_true.mp hmono2.1 sn hsn
        simpa using h
      omega
    obtain ⟨q, hq⟩ := ih _ _ hallrest hmono2.2
    exact ⟨q, chained_append _ _ _ _ _ hch hq⟩

theorem episodesForTodos_titles (idx : Nat) (todos : List TaskDict) :
    ∀ closed prev e, e ∈ (episodesForTodos idx todos closed prev).1 →
      ∃ t ∈ todos, (t.status == some "completed") = true ∧
        t.content.getD "" = e.title := by
  induction todos with
  | nil =>
    intro closed prev e he
    simp [episodesForTodos] at he
  | cons t ts ih =>
    intro closed prev e he
    simp only [episodesForTodos] at he
    by_cases hcond : (t.status == some "completed" &&
        decide (t.content.getD "" ≠ "") && !closed.contains (t.content.getD "")) = true
    · rw [if_pos hcond] at he
      rcases List.mem_cons.mp he with rfl | he'
      · refine ⟨t, List.mem_cons_self _ _, ?_, rfl⟩
        have hcond' := hcond
        simp only [Bool.and_eq_true] at hcond'
        exact hcond'.1.1
      · obtain ⟨x, hx, hP⟩ := ih _ _ e he'
        exact ⟨x, List.mem_cons_of_mem _ hx, hP⟩
    · rw [if_neg hcond] at he
      obtain ⟨x, hx, hP⟩ := ih _ _ e he
      exact ⟨x, List.mem_cons_of_mem _ hx, hP⟩

theorem episodesAux_titles (snaps : List Snapshot) :
    ∀ closed prev e, e ∈ episodesAux snaps closed prev →
      ∃ sn ∈ snaps, ∃ t ∈ sn.todos, (t.status == some "completed") = true ∧
        t.content.getD "" = e.title := by
  induction snaps with
  | nil =>
    intro closed prev e he
    simp [episodesAux] at he
  | cons s rest ih =>
    intro closed prev e he
    simp only [episodesAux] at he
    rcases List.mem_append.mp he with h | h
    · obtain ⟨t, ht, hP⟩ := episodesForTodos_titles s.message_index s.todos _ _ e h
      exact ⟨s, List.mem_cons_self _ _, t, ht, hP⟩
    · obtain ⟨sn, hsn, hrest⟩ := ih _ _ e h
      exact ⟨sn, List.mem_cons_of_mem _ hsn, hrest⟩

/-- C2 (amended): for every snapshot sequence whose `message_index`
values are non-decreasing — which is true of every sequence the extractor
builds, second conjunct — the segmenter's episodes have non-decreasing,
non-overlapping ranges, the first range starts at 0, and every title is a
content string that appears somewhere with status completed. -/
theorem episodes_invariants :
    (∀ snaps : List Snapshot, snapsMonoB snaps = true →
      episodeRangesNonDecreasingB (calculate_episodes snaps) = true ∧
      episodeRangesNonOverlappingB (calculate_episodes snaps) = true ∧
      firstEpisodeStartsAtZeroB (calculate_episodes snaps) = true ∧
      titlesFromCompletedB snaps (calculate_episodes snaps) = true) ∧
    (∀ entries : List Entry, snapsMonoB (extractLoop entries).todo_snapshots = true) := by
  constructor
  · intro snaps hmono
    cases snaps with
    | nil => exact ⟨rfl, rfl, rfl, rfl⟩
    | cons s rest =>
      have hcalc : calculate_episodes (s :: rest) = episodesAux (s :: rest) [] 0 := rfl
      obtain ⟨q, hq⟩ := episodesAux_chained (s :: rest) [] 0 (fun _ _ => Nat.zero_le _) hmono
      obtain ⟨hnd, hno⟩ := chained_pairwise _ _ _ hq
      rw [hcalc]
      refine ⟨hnd, hno, ?_, ?_⟩
      · cases he : episodesAux (s :: rest) [] 0 with
        | nil => rfl
        | cons e t =>
          rw [he] at hq
          obtain ⟨hf, -, -⟩ := hq
          simp [firstEpisodeStartsAtZeroB, hf]
      · unfold titlesFromCompletedB
        rw [List.all_eq_true]
        intro e he
        obtain ⟨sn, hsn, t, ht, hst, hcont⟩ := episodesAux_titles _ _ _ e he
        rw [List.any_eq_true]
        refine ⟨sn, hsn, ?_⟩
        rw [List.any_eq_true]
        exact ⟨t, ht, by simp [hst, hcont]⟩
  · exact extractLoop_snapsMono

/-- C2 witness: a monotone two-snapshot sequence completing "a" at index
2 and "b" at index 5. -/
theorem episodes_invariants_witness :
    episodeRangesNonDecreasingB
      (calculate_episodes
        [⟨2, none, [{ content := some "a", status := some "completed" }]⟩,
         ⟨5, none, [{ content := some "b", status := some "completed" }]⟩]) = true :=
  ((episodes_invariants).1
    [⟨2, none, [{ content := some "a", status := some "completed" }]⟩,
     ⟨5, none, [{ content := some "b", status := some "completed" }]⟩]
    (by decide)).1

/-- C2 counterexample: on a snapshot sequence with decreasing message
indices (never produced by the extractor, but allowed by the claim's
"every todo snapshot sequence") the produced ranges are not
non-decreasing: `[(0,5), (5,2)]`. -/
theorem episodes_unordered_snapshots_counterexample :
    calculate_episodes
        [⟨5, none, [{ content := some "a", status := some "completed" }]⟩,
         ⟨2, none, [{ content := some "b", status := some "completed" }]⟩]
      = [⟨"a", 0, 5, 5, 5⟩, ⟨"b", 5, 2, 2, -3⟩] ∧
    episodeRangesNonDecreasingB
        (calculate_episodes
          [⟨5, none, [{ content := some "a", status := some "completed" }]⟩,
           ⟨2, none, [{ content := some "b", status := some "completed" }]⟩])
      = false :=
  ⟨rfl, rfl⟩

end Deja
